import Mathlib

/-!
Verification of the retrieval core of the document question-answering
pipeline: a shallow embedding of `rag/vectorstore.py`, `rag/retrieve.py`,
`app/llm.py` and `rag/universal_chunk.py`, followed by theorems about the
documented properties of those functions.

Modelling conventions:
* Python strings are modelled as `List Char` (`Str`); slicing, `strip`,
  `lower`, `split` and regular-expression token extraction are implemented
  character by character, matching the ASCII behaviour of the regexes used
  by the source.
* Python floats are modelled as exact rationals.  The only irrational
  operation reached from the claims, `numpy.linalg.norm`, is passed in as a
  function parameter (`nrm`), as is every external model capability
  (embedder, cross-encoder, BM25 scorer), mirroring how the source treats
  them as opaque collaborators.
* `faiss.IndexFlatIP.search` is modelled from its contract: exact top-k by
  descending inner product with empty slots carrying id `-1`.
* Python's stable sorts (`sorted`, `list.sort`) are modelled by a stable
  insertion sort `isort gt`, where `gt x y` means "x must be strictly
  before y".
-/

abbrev Str := List Char

/-- ASCII apostrophe, written via its code point. -/
def apoc : Char := Char.ofNat 39

/-- The whitespace class of Python's `str.split` / regex `\s`:
space, tab, newline, carriage return, vertical tab, form feed. -/
def isWsC (c : Char) : Bool :=
  c = ' ' ∨ c = '\t' ∨ c = '\n' ∨ c = '\r' ∨ c = Char.ofNat 11 ∨ c = Char.ofNat 12

/-- Accumulator pass extracting maximal runs of characters satisfying `p`
(`cur` is the current run, reversed). -/
def runsByGo (p : Char → Bool) (cur : Str) : Str → List Str
  | [] => if cur = [] then [] else [cur.reverse]
  | c :: cs =>
    if p c then runsByGo p (c :: cur) cs
    else if cur = [] then runsByGo p cur cs
    else cur.reverse :: runsByGo p [] cs

/-- Maximal runs of characters satisfying `p` (the matches of a regex
class `[p]+`, and the pieces of `str.split()` when `p` is non-whitespace). -/
def runsBy (p : Char → Bool) (s : Str) : List Str := runsByGo p [] s

/-- Python `text.split()` (whitespace split, no empty pieces). -/
def splitWs (s : Str) : List Str := runsBy (fun c => !isWsC c) s

/-- Python `str.strip()`. -/
def stripCh (s : Str) : Str :=
  ((s.dropWhile isWsC).reverse.dropWhile isWsC).reverse

/-- Python `str.lower()` (ASCII case folding). -/
def lowerCh (s : Str) : Str := s.map Char.toLower

/-- Python `sep.join(ws)`. -/
def joinSep (sep : Str) : List Str → Str
  | [] => []
  | [w] => w
  | w :: ws => w ++ sep ++ joinSep sep ws

/-- Python `str.rstrip(bad)`: drop trailing characters satisfying `bad`. -/
def rstripSet (bad : Char → Bool) (s : Str) : Str :=
  (s.reverse.dropWhile bad).reverse

/-- Python `p == s[:len(p)]`, i.e. `s.startswith(p)`. -/
def isPre (p s : Str) : Bool := s.take p.length == p

/-- Python `s.endswith(p)`. -/
def isSuf (p s : Str) : Bool := s.drop (s.length - p.length) == p

/-- Python `p in s` (substring containment). -/
def hasSub (p s : Str) : Bool :=
  (List.range (s.length + 1)).any (fun i => isPre p (s.drop i))

/-- Stable insertion used to model Python's stable `sorted`:
`x` is placed before the first element `y` with `gt x y`. -/
def insertB (gt : α → α → Bool) (x : α) : List α → List α
  | [] => [x]
  | y :: ys => if gt x y then x :: y :: ys else y :: insertB gt x ys

/-- Left-to-right stable insertion sort (model of Python `sorted` where
`gt x y` holds when `x` must come strictly before `y`). -/
def isortAux (gt : α → α → Bool) : List α → List α → List α
  | acc, [] => acc
  | acc, x :: xs => isortAux gt (insertB gt x acc) xs

def isort (gt : α → α → Bool) (l : List α) : List α := isortAux gt [] l

/-- Python `max(l, key=f)` with default `d` for the empty list; on ties the
first maximiser wins, as with Python's `max`. -/
def argmaxD [LinearOrder β] (f : α → β) (d : α) : List α → α
  | [] => d
  | x :: xs =>
    match xs with
    | [] => x
    | _ :: _ => let y := argmaxD f d xs; if f x < f y then y else x

/-- Python `max(l)` on a nonempty list of rationals (0 for the empty list,
which the source never reaches). -/
def listMax : List ℚ → ℚ
  | [] => 0
  | x :: xs => xs.foldl max x

/-- Word counter with a carry flag recording whether the previous character
was part of a word; `wcAux false s` equals `(splitWs s).length`. -/
def wcAux : Bool → Str → Nat
  | _, [] => 0
  | prev, c :: cs =>
    if isWsC c then wcAux false cs
    else (if prev then 0 else 1) + wcAux true cs

/-- Number of whitespace-separated words of a string. -/
def wordCount (s : Str) : Nat := wcAux false s

/-- Carry flag after scanning `x` starting from flag `f` (true iff the last
character of `x` is not whitespace, or `x = []` and `f`). -/
def wcCarry (f : Bool) (x : Str) : Bool := x.foldl (fun _ c => !isWsC c) f

/-- Decimal digits of `n` with fuel (`fuel > n` suffices); structural so
that concrete evaluation reduces in the kernel. -/
def natDigitsGo : Nat → Nat → Str
  | 0, _ => []
  | fuel + 1, n =>
    if n < 10 then [Char.ofNat (48 + n)]
    else natDigitsGo fuel (n / 10) ++ [Char.ofNat (48 + n % 10)]

/-- Python `str(n)` for a natural number. -/
def natRepr (n : Nat) : Str := natDigitsGo (n + 1) n

/-- Ordered union of deduplicated lists (Python `set` union as used by the
strict guard; only membership and cardinality are ever consumed). -/
def unionL [DecidableEq α] (a b : List α) : List α :=
  a ++ b.filter (fun x => ¬ x ∈ a)

namespace Llm

/-- Characters of the token class `[a-z0-9']` of `_wordset`. -/
def isTokC (c : Char) : Bool := c.isLower ∨ c.isDigit ∨ c = apoc

/-- `app/llm.py _wordset`: the set of `[a-z0-9']+` tokens of the lowered
text, as a deduplicated list. -/
def wordset (t : Str) : List Str := (runsBy isTokC (lowerCh t)).dedup

/-- `re.sub(r"\s+", " ", t.strip())`: whitespace runs collapsed to single
spaces with no leading/trailing whitespace, i.e. the single-space join of
the whitespace-split words. -/
def normSpace (t : Str) : Str := joinSep [' '] (splitWs t)

/-- Splitter of `_SENT_SPLIT = (?<=[.!?])\s+` on collapsed text: break at
each single space preceded by `.`, `!` or `?` (the space is consumed). -/
def sentSplitGo (cur : Str) : Str → List Str
  | [] => [cur.reverse]
  | [c] => [(c :: cur).reverse]
  | c :: d :: cs =>
    if (c = '.' ∨ c = '!' ∨ c = '?') ∧ d = ' ' then
      (c :: cur).reverse :: sentSplitGo [] cs
    else sentSplitGo (c :: cur) (d :: cs)

/-- `app/llm.py _sentences`. -/
def sentences (t : Str) : List Str :=
  let t2 := normSpace t
  if t2 = [] then []
  else ((sentSplitGo [] t2).map stripCh).filter (fun s => s ≠ [])

/-- `app/llm.py _best_sents_for_query`: keep sentences sharing ≥1 distinct
query token, stable-sorted by descending shared-token count, top
`max_sents`. -/
def best_sents_for_query (query chunk : Str) (max_sents : Nat) : List Str :=
  let q := wordset query
  let scored := (sentences chunk).filterMap (fun s =>
    let overlap := (q.filter (fun w => w ∈ wordset s)).length
    if overlap > 0 then some (overlap, s) else none)
  ((isort (fun a b => decide (b.1 < a.1)) scored).take max_sents).map (fun p => p.2)

/-- `app/llm.py _trim_to_words`. -/
def trim_to_words (text : Str) (limit_words : Nat) : Str :=
  let toks := splitWs text
  if toks.length ≤ limit_words then text
  else
    rstripSet (fun c => c = ',' ∨ c = '.' ∨ c = ';' ∨ c = ':')
      (joinSep [' '] (toks.take limit_words)) ++ ['…']

/-- `app/llm.py _smalltalk_or_none`. -/
def smalltalk_or_none (q : Str) : Option Str :=
  let ql := lowerCh (stripCh q)
  let greetings : List Str := ["hi".toList, "hello".toList, "hey".toList,
    "hola".toList, "hi there".toList, "good morning".toList, "good evening".toList]
  let thanks : List Str := ["thanks".toList, "thank you".toList, "thx".toList,
    "ty".toList, "much appreciated".toList]
  let howare : List Str := ["how are you".toList, "how r u".toList,
    "how are u".toList, "hows it going".toList, "how’s it going".toList]
  let bye : List Str := ["bye".toList, "goodbye".toList, "see ya".toList,
    "see you".toList, "later".toList, "catch you later".toList]
  if ql ∈ greetings ∨ greetings.any (fun g => isPre (g ++ [' ']) ql) then
    some "Hey! 👋 What would you like to explore?".toList
  else if howare.any (fun p => hasSub p ql) then
    some "Doing well—curious as ever. What can I help you dig into?".toList
  else if ql ∈ thanks ∨ thanks.any (fun t => isSuf t ql) then
    some "You’re welcome!".toList
  else if ql ∈ bye ∨ bye.any (fun b => isPre (b ++ [' ']) ql) then
    some "Bye! If another question pops up, I’m here.".toList
  else none

/-- The fixed refusal message (its apostrophe written via `apoc`). -/
def refusalMsg : Str :=
  "I don".toList ++ [apoc] ++ "t know based on the indexed documents.".toList

/-- The per-rank sentence picks of `synthesize_answer`'s loop over
`contexts[:2]` (1-based rank paired with the picked sentences). -/
def pickedOf (query : Str) (contexts : List Str) : List (Nat × List Str) :=
  ((contexts.take 2).enum).map (fun p => (p.1 + 1, best_sents_for_query query p.2 2))

/-- `chosen_sents` accumulated by the loop. -/
def chosenSents (query : Str) (contexts : List Str) : List Str :=
  (pickedOf query contexts).foldl (fun acc p => acc ++ p.2) []

/-- `used_idxs` accumulated by the loop (ranks contributing ≥1 sentence). -/
def usedIdxs (query : Str) (contexts : List Str) : List Nat :=
  (pickedOf query contexts).filterMap (fun p => if p.2 = [] then none else some p.1)

/-- The strict guard's union of query tokens found across chosen
sentences. -/
def overlapUnion (query : Str) (contexts : List Str) : List Str :=
  let q := wordset query
  (chosenSents query contexts).foldl
    (fun acc s => unionL acc (q.filter (fun w => w ∈ wordset s))) []

/-- `app/llm.py synthesize_answer`. -/
def synthesize_answer (query : Str) (contexts : List Str) (strict : Bool) :
    Str × List Nat :=
  match (if strict then none else smalltalk_or_none query) with
  | some chit => (chit, [])
  | none =>
    if contexts = [] then (refusalMsg, [])
    else if (overlapUnion query contexts).length < 2 then (refusalMsg, [])
    else if chosenSents query contexts = [] then (refusalMsg, [])
    else
      (stripCh (trim_to_words (joinSep [' '] (chosenSents query contexts)) 60 ++ [' '] ++
         joinSep [] ((usedIdxs query contexts).map
           (fun i => '[' :: natRepr i ++ [']']))),
       usedIdxs query contexts)

end Llm

namespace VS

/-- A metadata record (`metadata.jsonl` sidecar entry): the fields the core
reads, each optional as in an open Python dict.  `{}` is `Meta.empty`. -/
structure Meta where
  doc_id : Option Str
  source : Option Str
  title : Option Str
  sect : Option Str
  row_range : Option Str
  text : Option Str
  snippet : Option Str
  chunk_id : Option Str
deriving DecidableEq, Repr

def Meta.empty : Meta := ⟨none, none, none, none, none, none, none, none⟩

/-- Python `(m.get("text") or m.get("snippet") or "")`: falsy (missing or
empty) `text` falls through to `snippet`, then to the empty string. -/
def textOrSnippet (m : Meta) : Str :=
  let t := m.text.getD []
  if t = [] then m.snippet.getD [] else t

/-- In-memory state of `VectorStore`: the faiss index contents (`ntotal` =
`vectors.length`), the parallel metadata list, and the optional BM25 index
modelled by the token corpus it was built over. -/
structure StoreState where
  vectors : List (List ℚ)
  metadocs : List Meta
  bm25 : Option (List (List Str))

/-- The BM25 corpus row for one record, as built by `VectorStore`:
`(text or snippet or "").strip().lower().split()`. -/
def bmRow (m : Meta) : List Str := splitWs (lowerCh (stripCh (textOrSnippet m)))

/-- `VectorStore._load`: `idxVecs` are the persisted index contents (empty
when no index file exists); each sidecar line is `some` parsed record or
`none` for a blank/unparseable line (both skipped).  Metadata is truncated
or padded with `{}` to the vector count, then BM25 is built over all
records if any exist. -/
def loadStore (idxVecs : List (List ℚ)) (lines : List (Option Meta)) : StoreState :=
  let metadocs := lines.filterMap id
  let n := idxVecs.length
  let metadocs :=
    if metadocs.length > n then metadocs.take n
    else if metadocs.length < n then metadocs ++ List.replicate (n - metadocs.length) Meta.empty
    else metadocs
  let tokens := metadocs.map bmRow
  { vectors := idxVecs, metadocs := metadocs,
    bm25 := if tokens = [] then none else some tokens }

/-- Per-record processing of `VectorStore.add`: `setdefault("chunk_id", uuid4())`
(the generated id is supplied by the caller as `fresh`) and truncation of a
string `text` field to 1500 characters. -/
def procMeta (fresh : Str) (m : Meta) : Meta :=
  let m1 := match m.chunk_id with
    | none => { m with chunk_id := some fresh }
    | some _ => m
  match m1.text with
  | some t => { m1 with text := some (t.take 1500) }
  | none => m1

/-- `VectorStore.add` (requires `embeddings.length = metadatas.length`, the
Python assert): append processed metadata and vectors, then rebuild BM25
over the whole updated corpus.  `freshIds` supplies the generated uuids. -/
def addStore (st : StoreState) (embeddings : List (List ℚ)) (metadatas : List Meta)
    (freshIds : List Str) : StoreState :=
  let newMetas := (metadatas.enum).map (fun p => procMeta (freshIds.getD p.1 []) p.2)
  let metadocs := st.metadocs ++ newMetas
  let vectors := st.vectors ++ embeddings
  let corpus := metadocs.map bmRow
  { vectors := vectors, metadocs := metadocs,
    bm25 := if corpus = [] then st.bm25 else some corpus }

def innerProd (a b : List ℚ) : ℚ := ((a.zip b).map (fun p => p.1 * p.2)).foldl (· + ·) 0

/-- `faiss.IndexFlatIP.search` on one query row, modelled from the faiss
contract: the k results by descending inner product (ties by ascending id),
with unfilled slots carrying id `-1`. -/
def faissSearch (vecs : List (List ℚ)) (q : List ℚ) (k : Nat) : List (ℚ × Int) :=
  let scored := (List.range vecs.length).map (fun i => (innerProd (vecs.getD i []) q, (i : Int)))
  let top := (isort (fun a b => decide (b.1 < a.1)) scored).take k
  top ++ List.replicate (k - top.length) (0, (-1 : Int))

/-- `VectorStore.search`: empty for an empty index; `-1` slots skipped; a
hit's metadata is `metadocs[idx]` when `idx` is in range and `{}` otherwise
(the guarded indexing on line 85 of `vectorstore.py`). -/
def search (st : StoreState) (qvec : List ℚ) (k : Nat) : List (ℚ × Meta) :=
  if st.vectors.length = 0 then []
  else
    (faissSearch st.vectors qvec k).filterMap (fun h =>
      if h.2 = -1 then none
      else some (h.1,
        if h.2.toNat < st.metadocs.length then st.metadocs.getD h.2.toNat Meta.empty
        else Meta.empty))

/-- `VectorStore.size` (`int(self.index.ntotal)`). -/
def storeSize (st : StoreState) : Nat := st.vectors.length

end VS

namespace Ret

/-- The embedding capability of `rag/embed.py` (opaque provider). -/
structure Embedder where
  encode_queries : List Str → List (List ℚ)
  encode_passages : List Str → List (List ℚ)

/-- The external numeric capabilities reached by `rag/retrieve.py`:
the embedder, `CrossEncoder.predict` (one score per (query, passage) pair,
its library contract recorded as `ce_len`), `BM25Okapi.get_scores`, and
`numpy.linalg.norm`. -/
structure Caps where
  embedder : Embedder
  ce_predict : Str → List Str → List ℚ
  ce_len : ∀ q ps, (ce_predict q ps).length = ps.length
  bm25_get_scores : List (List Str) → List Str → List ℚ
  nrm : List ℚ → ℚ

/-- Python `sorted(pairs, reverse=True)` order on `(score, index)` tuples:
descending score, ties by descending index. -/
def pairGt (a b : ℚ × Nat) : Bool := decide (b.1 < a.1 ∨ (a.1 = b.1 ∧ b.2 < a.2))

/-- `rag/rerank.py rerank`: score all pairs, sort `(score, i)` tuples in
reverse order, keep `top_k`. -/
def ce_rerank (caps : Caps) (query : Str) (passages : List Str) (top_k : Nat) :
    List (ℚ × Nat) :=
  if passages = [] then []
  else
    let scores := caps.ce_predict query passages
    (isort pairGt ((scores.enum).map (fun p => (p.2, p.1)))).take top_k

/-- One update of the `_rrf` dict `fused[idx] = fused.get(idx, 0.0) + v`,
on an insertion-ordered association list (Python dicts preserve insertion
order). -/
def rrfUpd (f : List (Nat × ℚ)) (idx : Nat) (v : ℚ) : List (Nat × ℚ) :=
  match f with
  | [] => [(idx, v)]
  | p :: rest => if p.1 = idx then (p.1, p.2 + v) :: rest else p :: rrfUpd rest idx v

/-- `rag/retrieve.py _rrf`: fused score `1/(k + rank + 1)` summed per
occurrence over all rank lists, keys in first-discovered order. -/
def rrf (ranks : List (List Nat)) (k : ℚ) : List (Nat × ℚ) :=
  ranks.foldl (fun fused rlist =>
    (rlist.enum).foldl (fun f p => rrfUpd f p.2 (1 / (k + (p.1 : ℚ) + 1))) fused) []

/-- Python `sorted(items, key=score, reverse=True)` order: strictly greater
score goes first; ties keep insertion order (stability). -/
def scoreGt (a b : Nat × ℚ) : Bool := decide (b.2 < a.2)

/-- Cosine similarity as computed in `_mmr`:
`dot / (nrm a * nrm b + 1e-8)`, with the float Euclidean norm `nrm`
supplied as a capability. -/
def cosSim (nrm : List ℚ → ℚ) (a b : List ℚ) : ℚ :=
  VS.innerProd a b / (nrm a * nrm b + 1 / 100000000)

/-- The precomputed `q_sim[j]` array of `_mmr`. -/
def q_simF (nrm : List ℚ → ℚ) (cand_vecs : List (List ℚ)) (query_vec : List ℚ)
    (j : Nat) : ℚ :=
  cosSim nrm (cand_vecs.getD j []) query_vec

/-- `mmr_score(j)` inside `_mmr` (`selected` nonempty at every call site). -/
def mmr_score (nrm : List ℚ → ℚ) (cand_vecs : List (List ℚ)) (query_vec : List ℚ)
    (lambda_ : ℚ) (selected : List Nat) (j : Nat) : ℚ :=
  lambda_ * q_simF nrm cand_vecs query_vec j -
    (1 - lambda_) * listMax (selected.map (fun s =>
      cosSim nrm (cand_vecs.getD j []) (cand_vecs.getD s [])))

/-- The `while remaining and len(selected) < top_k` loop of `_mmr`.  Each
iteration removes exactly one element from `remaining`, so running it with
fuel `remaining.length` is exact. -/
def mmrLoop (nrm : List ℚ → ℚ) (cand_vecs : List (List ℚ)) (query_vec : List ℚ)
    (lambda_ : ℚ) (top_k : Nat) : Nat → List Nat → List Nat → List Nat
  | 0, selected, _ => selected
  | fuel + 1, selected, remaining =>
    if remaining = [] ∨ top_k ≤ selected.length then selected
    else if selected = [] then
      let i := argmaxD (q_simF nrm cand_vecs query_vec) 0 remaining
      mmrLoop nrm cand_vecs query_vec lambda_ top_k fuel (selected ++ [i]) (remaining.erase i)
    else
      let j := argmaxD (mmr_score nrm cand_vecs query_vec lambda_ selected) 0 remaining
      mmrLoop nrm cand_vecs query_vec lambda_ top_k fuel (selected ++ [j]) (remaining.erase j)

/-- The `selected` list computed by `_mmr` over `remaining = range n`. -/
def mmrSel (nrm : List ℚ → ℚ) (cand_vecs : List (List ℚ)) (query_vec : List ℚ)
    (lambda_ : ℚ) (top_k : Nat) (n : Nat) : List Nat :=
  mmrLoop nrm cand_vecs query_vec lambda_ top_k n [] (List.range n)

/-- `rag/retrieve.py _mmr`. -/
def mmr (nrm : List ℚ → ℚ) (query_vec : List ℚ) (cand_vecs : List (List ℚ))
    (cand_idxs : List Nat) (top_k : Nat) (lambda_ : ℚ) : List Nat :=
  if cand_idxs = [] then []
  else
    (mmrSel nrm cand_vecs query_vec lambda_ top_k cand_idxs.length).map
      (fun i => cand_idxs.getD i 0)

/-- First index of `a` in `l` (Python `list.index`, as an option). -/
def firstIdx? [DecidableEq α] (l : List α) (a : α) : Option Nat :=
  match l with
  | [] => none
  | x :: xs => if x = a then some 0 else (firstIdx? xs a).map (· + 1)

/-- `qv[0]`: the query embedding row used throughout `retrieve`. -/
def qv0 (caps : Caps) (query : Str) : List ℚ :=
  (caps.embedder.encode_queries [query]).getD 0 []

/-- Stage 1, `vec_idxs`: positions of the search hits whose metadata occurs
in `metadocs` (first occurrence, Python `list.index`); unmatched hits
dropped. -/
def vec_idxs (caps : Caps) (query : Str) (st : VS.StoreState) : List Nat :=
  (VS.search st (qv0 caps query) 24).filterMap (fun h => firstIdx? st.metadocs h.2)

/-- The BM25 corpus `retrieve` scores against: the cached `store.bm25` if
set, else built over the non-empty text rows (note: unlike the store's own
builder, empty rows are skipped here). -/
def retr_corpus (st : VS.StoreState) : Option (List (List Str)) :=
  match st.bm25 with
  | some c => some c
  | none =>
    let tokens := st.metadocs.filterMap (fun m =>
      let t := stripCh (lowerCh (VS.textOrSnippet m))
      if t = [] then none else some (splitWs t))
    if tokens = [] then none else some tokens

/-- Stage 2, `bm_idxs`: top 50 corpus row indices by `sorted(..., reverse=True)`
over `(score, i)` tuples; empty when there is no corpus or no query token. -/
def bm_idxs (caps : Caps) (query : Str) (st : VS.StoreState) : List Nat :=
  match retr_corpus st with
  | none => []
  | some corpus =>
    let toks := splitWs (lowerCh query)
    if toks = [] then []
    else
      let bm_scores := caps.bm25_get_scores corpus toks
      (((isort pairGt ((bm_scores.enum).map (fun p => (p.2, p.1)))).take 50).map
        (fun p => p.2))

/-- `rank_lists` of stage 3 (each list appended only if nonempty). -/
def rank_lists (caps : Caps) (query : Str) (st : VS.StoreState) : List (List Nat) :=
  (if vec_idxs caps query st = [] then [] else [vec_idxs caps query st]) ++
  (if bm_idxs caps query st = [] then [] else [bm_idxs caps query st])

/-- Stage 3, `cand_idxs`: RRF-fused positions sorted by descending fused
score (stable).  Includes the early-return guards that precede it in
`retrieve` (empty store, no rank lists ⇒ `[]`). -/
def cand_idxs (caps : Caps) (query : Str) (st : VS.StoreState) : List Nat :=
  if VS.storeSize st = 0 ∨ st.metadocs.length = 0 then []
  else if rank_lists caps query st = [] then []
  else (isort scoreGt (rrf (rank_lists caps query st) 60)).map (fun p => p.1)

/-- Stage 4, `chosen_idxs`: MMR over the re-embedded candidate texts with
`top_k = min(8, len(cand_idxs))`, `lambda = 0.7`. -/
def chosen_idxs (caps : Caps) (query : Str) (st : VS.StoreState) : List Nat :=
  let cand := cand_idxs caps query st
  if cand = [] then []
  else
    let texts := cand.map (fun i => VS.textOrSnippet (st.metadocs.getD i VS.Meta.empty))
    let cand_vecs := caps.embedder.encode_passages texts
    (mmr caps.nrm (qv0 caps query) cand_vecs (List.range cand.length)
      (min 8 cand.length) (7 / 10)).map (fun i => cand.getD i 0)

/-- Stage 5, `final_idxs`: cross-encoder rerank of the chosen passages,
keeping `min(3, len(passages))`. -/
def final_idxs (caps : Caps) (query : Str) (st : VS.StoreState) : List Nat :=
  let chosen := chosen_idxs caps query st
  if chosen = [] then []
  else
    let passages := chosen.map (fun i => VS.textOrSnippet (st.metadocs.getD i VS.Meta.empty))
    (ce_rerank caps query passages (min 3 passages.length)).map
      (fun p => chosen.getD p.2 0)

/-- A source record of the assembly stage (`{**meta, rank, snippet,
chunk_index}`). -/
structure Source where
  meta : VS.Meta
  rank : Nat
  snippet : Str
  chunk_index : Nat
deriving DecidableEq, Repr

/-- `rag/retrieve.py retrieve`.  The `top_k` parameter is kept from the
source signature.  The in-range guard of the assembly loop coincides with
`getD`. -/
def retrieve (caps : Caps) (query : Str) (st : VS.StoreState) (top_k : Nat) :
    List Str × List Source :=
  if VS.storeSize st = 0 ∨ st.metadocs.length = 0 then ([], [])
  else
    let fi := final_idxs caps query st
    if fi = [] then ([], [])
    else
      (fi.map (fun i => VS.textOrSnippet (st.metadocs.getD i VS.Meta.empty)),
       (fi.enum).map (fun p =>
         let meta := st.metadocs.getD p.2 VS.Meta.empty
         { meta := meta, rank := p.1 + 1,
           snippet := (VS.textOrSnippet meta).take 500, chunk_index := p.2 }))

end Ret

namespace UC

/-- Space or tab (the class `[ \t]`). -/
def isSTab (c : Char) : Bool := c = ' ' ∨ c = '\t'

/-- Whitespace other than `\r`/`\n` (the class `[^\S\r\n]`). -/
def isWsNotNl (c : Char) : Bool := isWsC c ∧ c ≠ '\n' ∧ c ≠ '\r'

/-- `re.sub(r"[^\S\r\n]+", " ", t)`: collapse runs of non-newline
whitespace to a single space. -/
def collapseSpTab : Str → Str
  | [] => []
  | [c] => if isWsNotNl c then [' '] else [c]
  | c :: d :: cs =>
    if isWsNotNl c then
      if isWsNotNl d then collapseSpTab (d :: cs) else ' ' :: collapseSpTab (d :: cs)
    else c :: collapseSpTab (d :: cs)

/-- Automaton for `re.sub(r"[ \t]*\n[ \t]*", "\n", t)` scanning left to
right: `pend` buffers a run of spaces/tabs (reversed), dropped when the run
meets `\n` and emitted otherwise; `afterNl` drops the run following a
newline. -/
def trimNlGo (pend : Str) (afterNl : Bool) : Str → Str
  | [] => pend.reverse
  | c :: cs =>
    if isSTab c then
      if afterNl then trimNlGo [] true cs
      else trimNlGo (c :: pend) false cs
    else if c = '\n' then '\n' :: trimNlGo [] true cs
    else pend.reverse ++ c :: trimNlGo [] false cs

/-- `re.sub(r"[ \t]*\n[ \t]*", "\n", t)`: trim spaces/tabs around each
newline. -/
def trimAroundNl (t : Str) : Str := trimNlGo [] false t

/-- `rag/universal_chunk.py _normalize_text`; the external
`unicodedata.normalize("NFC", ·)` is passed in as `nfc`. -/
def normalize_text (nfc : Str → Str) (t : Str) : Str :=
  let t1 := nfc t
  let t2 := t1.map (fun c => if c = Char.ofNat 0 then ' ' else c)
  let t3 := collapseSpTab t2
  let t4 := trimAroundNl t3
  stripCh t4

/-- `str.splitlines` as reached here: split at `\n` or `\r` (a `\r\n` pair
yields an extra empty line, which the annotator skips anyway);
`"".splitlines() == []`. -/
def splitOnP (p : Char → Bool) : Str → List Str
  | [] => [[]]
  | c :: cs =>
    if p c then [] :: splitOnP p cs
    else
      match splitOnP p cs with
      | [] => [[c]]
      | w :: ws => (c :: w) :: ws

def splitLinesL (t : Str) : List Str :=
  if t = [] then [] else splitOnP (fun c => c = '\n' ∨ c = '\r') t

/-- The markdown part of `_MD_HEADER` on a stripped line: 1–6 `#`, at
least one whitespace, rest is the heading (then stripped). -/
def mdHeader (l : Str) : Option Str :=
  let hs := l.takeWhile (fun c => c = '#')
  let rest := l.drop hs.length
  if 1 ≤ hs.length ∧ hs.length ≤ 6 ∧ rest.head?.elim false isWsC then
    some (stripCh rest)
  else none

/-- The heuristic branch of `_is_heading`: 2–12 words, starts uppercase,
ends alphanumeric, strictly more than 60% of words capitalised. -/
def heurHeading (l : Str) : Option Str :=
  let words := splitWs l
  if 2 ≤ words.length ∧ words.length ≤ 12 ∧
      l.head?.elim false Char.isUpper ∧ l.getLast?.elim false Char.isAlphanum then
    let caps := (words.filter (fun w => w.head?.elim false Char.isUpper)).length
    if 5 * caps > 3 * max 1 words.length then some (stripCh l) else none
  else none

/-- `rag/universal_chunk.py _is_heading`. -/
def is_heading (l : Str) : Option Str :=
  match mdHeader l with
  | some h => some h
  | none => heurHeading l

/-- `_KV_LINE = ^[^\n:]{1,40}:\s+.+$` on a newline-free line: first colon
within 1–40 characters, followed by one whitespace and at least one more
character. -/
def isKvLine (l : Str) : Bool :=
  let pre := l.takeWhile (fun c => c ≠ ':')
  decide (1 ≤ pre.length) && decide (pre.length ≤ 40) &&
    (match l.drop pre.length with
     | ':' :: c :: _ :: _ => isWsC c
     | _ => false)

def rowDelims : List Char := [',', ';', '|', '\t']

/-- `rag/universal_chunk.py _row_like`: first delimiter of the fixed set
occurring at least twice. -/
def row_like (l : Str) : Option Char :=
  rowDelims.findSome? (fun d => if 2 ≤ l.count d then some d else none)

inductive Tag | heading | kv | row | plain
deriving DecidableEq, Repr

/-- One annotated line of `_annotate_lines`. -/
structure ALine where
  tag : Tag
  text : Str
  sect : Option Str
  delim : Option Char
deriving DecidableEq, Repr

def annotateGo (sect : Option Str) : List Str → List ALine
  | [] => []
  | raw :: rest =>
    let line := stripCh raw
    if line = [] then annotateGo sect rest
    else
      match is_heading line with
      | some h => ⟨Tag.heading, h, some h, none⟩ :: annotateGo (some h) rest
      | none =>
        if isKvLine line then ⟨Tag.kv, line, sect, none⟩ :: annotateGo sect rest
        else
          match row_like line with
          | some d => ⟨Tag.row, line, sect, some d⟩ :: annotateGo sect rest
          | none => ⟨Tag.plain, line, sect, none⟩ :: annotateGo sect rest

/-- `rag/universal_chunk.py _annotate_lines`. -/
def annotate_lines (t : Str) : List ALine := annotateGo none (splitLinesL t)

/-- `rag/universal_chunk.py _row_group_mode`: at least half of the window
is rows. -/
def rowGroupMode (w : List ALine) : Bool :=
  if w = [] then false
  else 2 * (w.filter (fun x => x.tag = Tag.row)).length ≥ w.length

/-- The chunker's sentence splitter `_SENT_SPLIT` with the lookahead
`(?=[A-Z0-9"\'(])`: break at a space preceded by `.!?` and followed by an
uppercase letter, digit, quote, apostrophe or open parenthesis. -/
def sentSplitCGo (cur : Str) : Str → List Str
  | [] => [cur.reverse]
  | [c] => [(c :: cur).reverse]
  | [c, d] => sentSplitCGo (c :: cur) [d]
  | c :: d :: e :: cs =>
    if (c = '.' ∨ c = '!' ∨ c = '?') ∧ d = ' ' ∧
        (e.isUpper || e.isDigit || e == '"' || e == apoc || e == '(') then
      (c :: cur).reverse :: sentSplitCGo [] (e :: cs)
    else sentSplitCGo (c :: cur) (d :: e :: cs)

/-- `rag/universal_chunk.py _sentences`. -/
def sentencesC (t : Str) : List Str :=
  let t2 := Llm.normSpace t
  if t2 = [] then []
  else ((sentSplitCGo [] t2).map stripCh).filter (fun s => s ≠ [])

/-- `rag/universal_chunk.py _approx_tokens`:
`int(1.3 * max(1, len(s.split())))`; over the reachable word counts the
float product rounds to the exact value, so this is `⌊13·w/10⌋`. -/
def approx_tokens (s : Str) : Nat := 13 * max 1 (splitWs s).length / 10

/-- `rag/universal_chunk.py _mk_prefix` (Python truthiness: empty title or
section is falsy). -/
def mk_pref (title : Str) (sect : Option Str) : Str :=
  let s := sect.getD []
  if title ≠ [] ∧ s ≠ [] then title ++ " > ".toList ++ s ++ ['\n']
  else if title ≠ [] then title ++ ['\n']
  else []

/-- The mutable state of `make_chunks`'s assembly loop. -/
structure CState where
  window : List ALine
  buf_sents : List Str
  buf_tokens : Nat
  current_section : Option Str
  row_buf : List Str
  row_start : Nat
  row_count : Nat
  chunks : List (Str × VS.Meta)

/-- The overlap retention loop at the end of `flush_prose`: walk the buffer
backwards, keeping trailing sentences while their token total stays below
the overlap budget. -/
def overlapGo (overlap_tokens : Nat) : List Str → Nat → List Str → List Str
  | [], _, back => back
  | s :: rest, tokens, back =>
    if tokens + approx_tokens s ≥ overlap_tokens then back
    else overlapGo overlap_tokens rest (tokens + approx_tokens s) (s :: back)

def overlapBack (sents : List Str) (overlap_tokens : Nat) : List Str :=
  overlapGo overlap_tokens sents.reverse 0 []

/-- `flush_prose` inside `make_chunks`. -/
def flush_prose (title : Str) (overlap_tokens max_chars : Nat) (st : CState) : CState :=
  if st.buf_sents = [] then st
  else
    let body := joinSep [' '] st.buf_sents
    let out := (mk_pref title st.current_section ++ body).take max_chars
    let meta : VS.Meta := ⟨some title, some "file".toList, some title,
      some (st.current_section.getD []), none, some out, none, none⟩
    let back := overlapBack st.buf_sents overlap_tokens
    { st with
        chunks := st.chunks ++ [(out, meta)]
        buf_sents := back
        buf_tokens := (back.map approx_tokens).sum }

/-- `flush_rows` inside `make_chunks`. -/
def flush_rows (title : Str) (max_chars : Nat) (st : CState) : CState :=
  if st.row_buf = [] then st
  else
    let r_end := st.row_start + st.row_buf.length - 1
    let sectPart := match st.current_section with
      | some s => if s = [] then "rows".toList else s
      | none => "rows".toList
    let pfx := title ++ " > ".toList ++ sectPart ++ ['\n']
    let body := joinSep ['\n'] st.row_buf
    let out := (pfx ++ body).take max_chars
    let rng := natRepr st.row_start ++ ['-'] ++ natRepr r_end
    let meta : VS.Meta := ⟨some title, some "file".toList, some title,
      some ("rows ".toList ++ rng), some rng, some out, none, none⟩
    let back := if st.row_buf.length > 5 then st.row_buf.drop (st.row_buf.length - 5)
                else st.row_buf
    { st with
        chunks := st.chunks ++ [(out, meta)]
        row_buf := back
        row_start := r_end - back.length + 1 }

/-- The per-sentence accumulation of prose mode (note: after a flush the
token counter is reset to the new sentence's cost alone, exactly as in the
source). -/
def addSent (title : Str) (target_tokens overlap_tokens max_chars : Nat)
    (st : CState) (s : Str) : CState :=
  let tk := approx_tokens s
  if st.buf_tokens + tk ≤ target_tokens ∨ st.buf_sents = [] then
    { st with buf_sents := st.buf_sents ++ [s], buf_tokens := st.buf_tokens + tk }
  else
    let st1 := flush_prose title overlap_tokens max_chars st
    { st1 with buf_sents := st1.buf_sents ++ [s], buf_tokens := tk }

/-- One iteration of `make_chunks`'s main loop over annotated lines. -/
def stepLine (title : Str) (target_tokens overlap_tokens max_chars : Nat)
    (st : CState) (item : ALine) : CState :=
  let w0 := st.window ++ [item]
  let w := if w0.length > 20 then w0.drop 1 else w0
  let st := { st with window := w }
  if item.tag = Tag.heading then { st with current_section := some item.text }
  else if rowGroupMode w then
    let st := flush_prose title overlap_tokens max_chars st
    let st := { st with row_count := st.row_count + 1 }
    let d := item.delim.getD ','
    let cols := (splitOnP (fun c => c = d) item.text).map stripCh
    let st := { st with
      row_buf := st.row_buf ++ [joinSep " ; ".toList (cols.filter (fun c => c ≠ []))] }
    if st.row_buf.length ≥ 30 then flush_rows title max_chars st else st
  else
    let sents := if item.tag = Tag.kv then [item.text] else sentencesC item.text
    sents.foldl (addSent title target_tokens overlap_tokens max_chars) st

/-- Number of regex matches of `[A-Za-z]{2,}`: maximal alphabetic runs of
length at least 2. -/
def alphaTokens (s : Str) : Nat :=
  ((runsBy Char.isAlpha s).filter (fun r => 2 ≤ r.length)).length

def initCState : CState := ⟨[], [], 0, none, [], 1, 0, []⟩

/-- `rag/universal_chunk.py make_chunks`. -/
def make_chunks (nfc : Str → Str) (text : Str) (title : Str)
    (target_tokens overlap_tokens max_chars : Nat) : List (Str × VS.Meta) :=
  let t := normalize_text nfc text
  let lines := annotate_lines t
  let st := lines.foldl (stepLine title target_tokens overlap_tokens max_chars) initCState
  let st := flush_rows title max_chars st
  let st := flush_prose title overlap_tokens max_chars st
  st.chunks.filter (fun cm => 5 ≤ alphaTokens cm.1)

end UC

/-! ## General lemmas about the modelling toolkit -/

theorem insertB_perm (gt : α → α → Bool) (x : α) (l : List α) :
    (insertB gt x l).Perm (x :: l) := by
  induction l with
  | nil => simp [insertB]
  | cons y ys ih =>
    simp only [insertB]
    split
    · exact List.Perm.refl _
    · exact ((ih.cons y).trans (List.Perm.swap x y ys)).symm.symm

theorem isortAux_perm (gt : α → α → Bool) (l acc : List α) :
    (isortAux gt acc l).Perm (acc ++ l) := by
  induction l generalizing acc with
  | nil => simp [isortAux]
  | cons x xs ih =>
    simp only [isortAux]
    have h1 : (insertB gt x acc).Perm (x :: acc) := insertB_perm gt x acc
    exact (ih (insertB gt x acc)).trans
      ((h1.append_right xs).trans List.perm_middle.symm)

theorem isort_perm (gt : α → α → Bool) (l : List α) : (isort gt l).Perm l := by
  simpa [isort] using isortAux_perm gt l []

theorem isort_length (gt : α → α → Bool) (l : List α) :
    (isort gt l).length = l.length :=
  (isort_perm gt l).length_eq

theorem isort_mem (gt : α → α → Bool) (l : List α) (a : α) :
    a ∈ isort gt l ↔ a ∈ l :=
  (isort_perm gt l).mem_iff

theorem argmaxD_cons2 [LinearOrder β] (f : α → β) (d x y : α) (ys : List α) :
    argmaxD f d (x :: y :: ys) =
      if f x < f (argmaxD f d (y :: ys)) then argmaxD f d (y :: ys) else x := rfl

theorem argmaxD_mem [LinearOrder β] (f : α → β) (d : α) (l : List α) (h : l ≠ []) :
    argmaxD f d l ∈ l := by
  induction l with
  | nil => simp at h
  | cons x xs ih =>
    cases xs with
    | nil => simp [argmaxD]
    | cons y ys =>
      rw [argmaxD_cons2]
      split
      · exact List.mem_cons_of_mem x (ih (by simp))
      · exact List.mem_cons_self x _

theorem argmaxD_le [LinearOrder β] (f : α → β) (d : α) (l : List α) :
    ∀ a ∈ l, f a ≤ f (argmaxD f d l) := by
  induction l with
  | nil => simp
  | cons x xs ih =>
    intro a ha
    cases xs with
    | nil =>
      simp only [List.mem_singleton] at ha
      simp [argmaxD, ha]
    | cons y ys =>
      rw [argmaxD_cons2]
      rcases List.mem_cons.mp ha with rfl | ha2
      · split
        · next hlt => exact le_of_lt hlt
        · exact le_refl _
      · have h2 := ih a ha2
        split
        · exact h2
        · next hnlt => exact h2.trans (le_of_not_lt hnlt)

theorem argmaxD_congr [LinearOrder β] (f g : α → β) (d : α) (l : List α)
    (h : ∀ a ∈ l, f a = g a) : argmaxD f d l = argmaxD g d l := by
  induction l with
  | nil => rfl
  | cons x xs ih =>
    cases xs with
    | nil => simp [argmaxD]
    | cons y ys =>
      have hx := h x (by simp)
      have hrec := ih (fun a ha => h a (List.mem_cons_of_mem x ha))
      have hm : argmaxD g d (y :: ys) ∈ y :: ys := argmaxD_mem g d _ (by simp)
      have hfg : f (argmaxD g d (y :: ys)) = g (argmaxD g d (y :: ys)) :=
        h _ (List.mem_cons_of_mem x hm)
      rw [argmaxD_cons2, argmaxD_cons2, hrec, hx, hfg]

/-! ## C7: empty store guard of `retrieve` -/

/-- Claim C7: for every query string and every `top_k`, if the store holds
zero vectors or zero metadata records, `retrieve` returns exactly
`([], [])`. -/
theorem c7_retrieve_empty_store (caps : Ret.Caps) (query : Str)
    (st : VS.StoreState) (top_k : Nat)
    (h : VS.storeSize st = 0 ∨ st.metadocs = []) :
    Ret.retrieve caps query st top_k = ([], []) := by
  have h2 : VS.storeSize st = 0 ∨ st.metadocs.length = 0 := by
    rcases h with h | h
    · exact Or.inl h
    · exact Or.inr (by simp [h])
  unfold Ret.retrieve
  rw [if_pos h2]

theorem c7_retrieve_empty_store_witness :
    (VS.storeSize { vectors := [], metadocs := [], bm25 := none } = 0 ∨
      ({ vectors := [], metadocs := [], bm25 := none } : VS.StoreState).metadocs = []) ∧
    Ret.retrieve
      { embedder := ⟨fun _ => [], fun _ => []⟩
        ce_predict := fun _ ps => ps.map (fun _ => 0)
        ce_len := fun _ ps => by simp
        bm25_get_scores := fun _ _ => []
        nrm := fun _ => 0 }
      "any query".toList { vectors := [], metadocs := [], bm25 := none } 5 = ([], []) :=
  ⟨Or.inl rfl,
   c7_retrieve_empty_store _ _ _ 5 (Or.inl rfl)⟩

/-! ## C10: cited ranks are an increasing subsequence of [1, 2] -/

theorem usedIdxs_sublist (q : Str) (ctxs : List Str) :
    List.Sublist (Llm.usedIdxs q ctxs) [1, 2] := by
  rcases ctxs with _ | ⟨a, _ | ⟨b, rest⟩⟩
  · simp [Llm.usedIdxs, Llm.pickedOf]
  · by_cases h : Llm.best_sents_for_query q a 2 = [] <;>
      simp [Llm.usedIdxs, Llm.pickedOf, List.enum, List.enumFrom, h]
  · by_cases h1 : Llm.best_sents_for_query q a 2 = [] <;>
      by_cases h2 : Llm.best_sents_for_query q b 2 = [] <;>
      simp [Llm.usedIdxs, Llm.pickedOf, List.enum, List.enumFrom, h1, h2]

/-- Claim C10: for every query, contexts list and strict flag, the cited
ranks returned by `synthesize_answer` form a subsequence of `[1, 2]` (so a
context at rank 3 or beyond is never cited). -/
theorem c10_cited_ranks_sublist (query : Str) (ctxs : List Str) (strict : Bool) :
    List.Sublist (Llm.synthesize_answer query ctxs strict).2 [1, 2] := by
  unfold Llm.synthesize_answer
  cases hm : (if strict then none else Llm.smalltalk_or_none query) with
  | some chit => simp
  | none =>
    by_cases hc : ctxs = []
    · simp [hc]
    · rw [if_neg hc]
      by_cases h1 : (Llm.overlapUnion query ctxs).length < 2
      · simp [h1]
      · rw [if_neg h1]
        by_cases h2 : Llm.chosenSents query ctxs = []
        · simp [h2]
        · rw [if_neg h2]
          exact usedIdxs_sublist query ctxs

/-! ## C2: the position-join invariant of the store -/

/-- Claim C2: after `_load`, `len(metadocs) = ntotal` (metadata truncated or
padded to the vector count); under the `add` precondition
`len(vectors) = len(metadatas)`, `add` extends vectors and metadata in
parallel, so `size` grows by exactly the number of added vectors and
`len(metadata) = size` is preserved (hence `metadata[i]` stays the record
appended alongside vector `i`). -/
theorem c2_position_join_invariant (idxVecs : List (List ℚ)) (lines : List (Option VS.Meta))
    (st : VS.StoreState) (emb : List (List ℚ)) (metas : List VS.Meta) (fresh : List Str)
    (h1 : emb.length = metas.length)
    (h2 : st.metadocs.length = VS.storeSize st) :
    (VS.loadStore idxVecs lines).metadocs.length = VS.storeSize (VS.loadStore idxVecs lines) ∧
    VS.storeSize (VS.loadStore idxVecs lines) = idxVecs.length ∧
    VS.storeSize (VS.addStore st emb metas fresh) = VS.storeSize st + emb.length ∧
    (VS.addStore st emb metas fresh).metadocs.length =
      VS.storeSize (VS.addStore st emb metas fresh) ∧
    (VS.addStore st emb metas fresh).metadocs =
      st.metadocs ++ (metas.enum).map (fun p => VS.procMeta (fresh.getD p.1 []) p.2) ∧
    (VS.addStore st emb metas fresh).vectors = st.vectors ++ emb := by
  refine ⟨?_, ?_, ?_, ?_, ?_, ?_⟩
  · simp only [VS.loadStore, VS.storeSize]
    split
    · next hgt => simp; omega
    · split
      · next hlt => simp; omega
      · next hngt hnlt => simp at hngt hnlt ⊢; omega
  · simp [VS.loadStore, VS.storeSize]
  · simp [VS.addStore, VS.storeSize]
  · simp only [VS.addStore, VS.storeSize, List.length_append, List.length_map,
      List.enum_length]
    simp only [VS.storeSize] at h2
    omega
  · simp [VS.addStore]
  · simp [VS.addStore]

theorem c2_position_join_invariant_witness :
    (([[(1 : ℚ), 0]] : List (List ℚ)).length = ([VS.Meta.empty] : List VS.Meta).length) ∧
    VS.storeSize (VS.addStore (VS.loadStore [[(0 : ℚ), 1]] [some VS.Meta.empty, none])
      [[(1 : ℚ), 0]] [VS.Meta.empty] []) = 2 := by
  have hload := c2_position_join_invariant [[(0 : ℚ), 1]] [some VS.Meta.empty, none]
    (VS.loadStore [[(0 : ℚ), 1]] [some VS.Meta.empty, none])
    [[(1 : ℚ), 0]] [VS.Meta.empty] [] (by simp) (by decide)
  refine ⟨by simp, ?_⟩
  have h3 := hload.2.2.1
  have h2 := hload.2.1
  rw [h3, h2]
  rfl

/-! ## C1: join behaviour of `VectorStore.search` -/

theorem faissSearch_mem (vecs : List (List ℚ)) (q : List ℚ) (k : Nat) (p : ℚ × Int)
    (hp : p ∈ VS.faissSearch vecs q k) :
    p.2 = -1 ∨ (0 ≤ p.2 ∧ p.2.toNat < vecs.length) := by
  simp only [VS.faissSearch] at hp
  rcases List.mem_append.mp hp with h | h
  · have h2 := List.mem_of_mem_take h
    have h3 := (isort_mem _ _ _).mp h2
    simp only [List.mem_map, List.mem_range] at h3
    obtain ⟨i, hi, hpi⟩ := h3
    right
    rw [← hpi]
    simp [hi]
  · left
    have := List.eq_of_mem_replicate h
    rw [this]

/-- Counterexample to claim C1 as stated: on a store whose index holds one
vector but whose metadata list is empty, `search` returns the hit paired
with the empty metadata record `{}` instead of dropping it. -/
theorem c1_counterexample :
    (VS.search { vectors := [[1]], metadocs := [], bm25 := none } [1] 1).map Prod.snd
        = [VS.Meta.empty] ∧
    ({ vectors := [[1]], metadocs := [], bm25 := none } : VS.StoreState).metadocs = [] :=
  ⟨rfl, rfl⟩

/-- Claim C1 (amended): `search` drops only the `-1` sentinel slots; a hit
whose position is beyond the metadata list is kept with empty metadata
`{}`.  Under the position-join invariant `len(metadocs) = ntotal`, every
returned pair's metadata is a stored record. -/
theorem c1_search_resolves_under_invariant (st : VS.StoreState) (q : List ℚ) (k : Nat)
    (h : st.metadocs.length = st.vectors.length) :
    ∀ p ∈ VS.search st q k, p.2 ∈ st.metadocs := by
  intro p hp
  unfold VS.search at hp
  split at hp
  · simp at hp
  · obtain ⟨a, ha, hfa⟩ := List.mem_filterMap.mp hp
    rcases faissSearch_mem st.vectors q k a ha with h1 | ⟨h1a, h1b⟩
    · simp [h1] at hfa
    · have hne : ¬ a.2 = -1 := by omega
      rw [if_neg hne] at hfa
      have hlt : a.2.toNat < st.metadocs.length := by omega
      rw [if_pos hlt] at hfa
      have hsnd : p.2 = st.metadocs.getD a.2.toNat VS.Meta.empty := by
        rw [← Option.some_inj.mp hfa]
      rw [hsnd, List.getD_eq_getElem st.metadocs VS.Meta.empty hlt]
      exact List.getElem_mem hlt

theorem c1_search_resolves_witness :
    (({ vectors := [[(1 : ℚ)]], metadocs := [VS.Meta.empty], bm25 := none } :
        VS.StoreState).metadocs.length =
      ({ vectors := [[(1 : ℚ)]], metadocs := [VS.Meta.empty], bm25 := none } :
        VS.StoreState).vectors.length) ∧
    ∀ p ∈ VS.search
        { vectors := [[(1 : ℚ)]], metadocs := [VS.Meta.empty], bm25 := none } [1] 2,
      p.2 ∈ ({ vectors := [[(1 : ℚ)]], metadocs := [VS.Meta.empty], bm25 := none } :
        VS.StoreState).metadocs :=
  ⟨rfl, c1_search_resolves_under_invariant _ [1] 2 rfl⟩

/-! ## C6: the strict guard fires in both modes -/

/-- Claim C6: whenever synthesis proceeds past the intent table (strict
mode, or no smalltalk match) and the empty-context check, a guard union of
fewer than 2 distinct query tokens yields the exact refusal with no
citations, in both modes. -/
theorem c6_strict_guard (query : Str) (ctxs : List Str) (strict : Bool)
    (hpass : strict = true ∨ Llm.smalltalk_or_none query = none)
    (hne : ctxs ≠ [])
    (hguard : (Llm.overlapUnion query ctxs).length < 2) :
    Llm.synthesize_answer query ctxs strict = (Llm.refusalMsg, []) := by
  unfold Llm.synthesize_answer
  have hm : (if strict then none else Llm.smalltalk_or_none query) = none := by
    rcases hpass with h | h
    · simp [h]
    · cases strict <;> simp [h]
  rw [hm, if_neg hne, if_pos hguard]

theorem c6_strict_guard_witness :
    (true = true ∨ Llm.smalltalk_or_none "qq".toList = none) ∧
    (["x y".toList] ≠ ([] : List Str)) ∧
    (Llm.overlapUnion "qq".toList ["x y".toList]).length < 2 ∧
    Llm.synthesize_answer "qq".toList ["x y".toList] true = (Llm.refusalMsg, []) :=
  ⟨Or.inl rfl, by decide, by decide,
   c6_strict_guard _ _ _ (Or.inl rfl) (by decide) (by decide)⟩

/-! ## C9: the `top_k` argument of `retrieve` has no effect -/

theorem ce_rerank_length (caps : Ret.Caps) (query : Str) (passages : List Str) (k : Nat) :
    (Ret.ce_rerank caps query passages k).length = min k passages.length := by
  unfold Ret.ce_rerank
  split
  · next h => simp [h]
  · next h =>
    rw [List.length_take, isort_length, List.length_map, List.enum_length, caps.ce_len]

theorem final_idxs_length (caps : Ret.Caps) (query : Str) (st : VS.StoreState) :
    (Ret.final_idxs caps query st).length = min 3 (Ret.chosen_idxs caps query st).length := by
  simp only [Ret.final_idxs]
  split
  · next h => simp [h]
  · next h =>
    rw [List.length_map, ce_rerank_length, List.length_map]
    omega

/-- Claim C9 (implicit): the `top_k` argument of `retrieve` is never used,
so the output is identical for any two requested widths, and the number of
returned contexts is always `min(3, |MMR-chosen candidates|)`. -/
theorem c9_top_k_unused (caps : Ret.Caps) (query : Str) (st : VS.StoreState) (a b : Nat) :
    Ret.retrieve caps query st a = Ret.retrieve caps query st b ∧
    (Ret.retrieve caps query st a).1.length =
      min 3 (Ret.chosen_idxs caps query st).length := by
  constructor
  · rfl
  · by_cases hg : VS.storeSize st = 0 ∨ st.metadocs.length = 0
    · have hcand : Ret.cand_idxs caps query st = [] := by
        unfold Ret.cand_idxs
        rw [if_pos hg]
      have hch : Ret.chosen_idxs caps query st = [] := by
        simp only [Ret.chosen_idxs, hcand]
        simp
      unfold Ret.retrieve
      rw [if_pos hg, hch]
      simp
    · by_cases hfi : Ret.final_idxs caps query st = []
      · have h0 := final_idxs_length caps query st
        rw [hfi] at h0
        simp only [List.length_nil] at h0
        unfold Ret.retrieve
        rw [if_neg hg]
        simp only [hfi, if_pos]
        simp [← h0]
      · unfold Ret.retrieve
        rw [if_neg hg]
        simp only [hfi, if_false, List.length_map]
        exact final_idxs_length caps query st

/-! ## Word-count lemmas for C3 -/

theorem wcCarry_append (f : Bool) (x y : Str) :
    wcCarry f (x ++ y) = wcCarry (wcCarry f x) y := by
  simp [wcCarry, List.foldl_append]

theorem wcCarry_cons (f : Bool) (c : Char) (cs : Str) :
    wcCarry f (c :: cs) = wcCarry (!isWsC c) cs := by
  simp [wcCarry]

theorem wcAux_append (f : Bool) (x y : Str) :
    wcAux f (x ++ y) = wcAux f x + wcAux (wcCarry f x) y := by
  induction x generalizing f with
  | nil => simp [wcAux, wcCarry]
  | cons c cs ih =>
    simp only [List.cons_append, wcAux, wcCarry_cons, List.append_eq]
    split
    · next hws =>
      rw [ih false]
      simp [hws]
    · next hws =>
      rw [ih true]
      simp [hws]
      omega

theorem wcAux_all_ws (f : Bool) (s : Str) (h : ∀ c ∈ s, isWsC c = true) :
    wcAux f s = 0 := by
  induction s generalizing f with
  | nil => rfl
  | cons c cs ih =>
    have hc := h c (by simp)
    simp only [wcAux, hc, if_pos]
    exact ih false (fun d hd => h d (List.mem_cons_of_mem c hd))

theorem wcAux_all_nonws (f : Bool) (s : Str) (h : ∀ c ∈ s, isWsC c = false) :
    wcAux f s = if s = [] then 0 else if f then 0 else 1 := by
  induction s generalizing f with
  | nil => rfl
  | cons c cs ih =>
    have hc := h c (by simp)
    have hrec := ih true (fun d hd => h d (List.mem_cons_of_mem c hd))
    simp only [wcAux, hc]
    rw [hrec]
    simp

theorem wcCarry_all_nonws (f : Bool) (s : Str) (hne : s ≠ [])
    (h : ∀ c ∈ s, isWsC c = false) : wcCarry f s = true := by
  induction s generalizing f with
  | nil => simp at hne
  | cons c cs ih =>
    rw [wcCarry_cons]
    cases cs with
    | nil => simp [wcCarry, h c (by simp)]
    | cons d ds => exact ih _ (by simp) (fun e he => h e (List.mem_cons_of_mem c he))

/-- Run extraction invariant: every run is nonempty, and all its characters
satisfy `p` (provided the pending run does). -/
theorem runsByGo_words (p : Char → Bool) (s : Str) (cur : Str)
    (hcur : ∀ c ∈ cur, p c = true) :
    ∀ w ∈ runsByGo p cur s, w ≠ [] ∧ ∀ c ∈ w, p c = true := by
  induction s generalizing cur with
  | nil =>
    intro w hw
    simp only [runsByGo] at hw
    split at hw
    · simp at hw
    · next hc =>
      simp only [List.mem_singleton] at hw
      subst hw
      exact ⟨by simpa using hc, fun c hc2 => hcur c (by simpa using hc2)⟩
  | cons c cs ih =>
    intro w hw
    simp only [runsByGo] at hw
    split at hw
    · next hpc =>
      exact ih (c :: cur) (by
        intro d hd
        rcases List.mem_cons.mp hd with rfl | hd2
        · exact hpc
        · exact hcur d hd2) w hw
    · split at hw
      · exact ih cur hcur w hw
      · next hcne =>
        rcases List.mem_cons.mp hw with rfl | hw2
        · exact ⟨by simpa using hcne, fun d hd => hcur d (by simpa using hd)⟩
        · exact ih [] (by simp) w hw2

theorem splitWs_words (s : Str) :
    ∀ w ∈ splitWs s, w ≠ [] ∧ ∀ c ∈ w, isWsC c = false := by
  intro w hw
  have := runsByGo_words (fun c => !isWsC c) s [] (by simp) w hw
  exact ⟨this.1, fun c hc => by simpa using this.2 c hc⟩

/-- The run count of the whitespace splitter agrees with the carry-flag
word counter (`!cur.isEmpty` plays the role of the carry flag). -/
theorem runsByGo_length (s : Str) : ∀ cur : Str,
    (runsByGo (fun c => !isWsC c) cur s).length =
      (if cur = [] then 0 else 1) + wcAux (!cur.isEmpty) s := by
  induction s with
  | nil =>
    intro cur
    simp only [runsByGo, wcAux]
    split <;> simp
  | cons c cs ih =>
    intro cur
    simp only [runsByGo, wcAux]
    by_cases hws : isWsC c = true
    · rw [if_neg (by simp [hws]), hws]
      simp only [if_pos]
      split
      · next hcur => subst hcur; rw [ih []]; simp
      · next hcur =>
        simp only [List.length_cons]
        rw [ih []]
        simp [hcur]
        omega
    · rw [if_pos (by simp [hws])]
      rw [ih (c :: cur)]
      have hbe : (isWsC c) = false := by simpa using hws
      rw [hbe]
      simp only [if_neg (by simp : ¬ (c :: cur) = [])]
      split
      · next hcur => simp [hcur]
      · next hcur => simp [hcur]

theorem wordCount_eq_splitWs (s : Str) : wordCount s = (splitWs s).length := by
  rw [splitWs, runsBy, runsByGo_length s []]
  simp [wordCount]

theorem wcCarry_indep (f g : Bool) (s : Str) (h : s ≠ []) :
    wcCarry f s = wcCarry g s := by
  cases s with
  | nil => simp at h
  | cons c cs => simp [wcCarry_cons]

theorem joinSep_ne_empty (sep : Str) (ws : List Str) (hne : ws ≠ [])
    (h : ∀ w ∈ ws, w ≠ []) : joinSep sep ws ≠ [] := by
  cases ws with
  | nil => simp at hne
  | cons w rest =>
    cases rest with
    | nil => simpa [joinSep] using h w (by simp)
    | cons w2 rest2 =>
      simp only [joinSep]
      have := h w (by simp)
      simp [this]

theorem wc_join_words (ws : List Str)
    (h : ∀ w ∈ ws, w ≠ [] ∧ ∀ c ∈ w, isWsC c = false) :
    wordCount (joinSep [' '] ws) = ws.length ∧
    (ws ≠ [] → wcCarry false (joinSep [' '] ws) = true) := by
  induction ws with
  | nil => simp [joinSep, wordCount, wcAux]
  | cons w rest ih =>
    have hw := h w (by simp)
    cases rest with
    | nil =>
      refine ⟨?_, fun _ => wcCarry_all_nonws false w hw.1 hw.2⟩
      simp only [joinSep, wordCount]
      rw [wcAux_all_nonws false w hw.2]
      simp [hw.1]
    | cons w2 rest2 =>
      have hrec := ih (fun x hx => h x (List.mem_cons_of_mem w hx))
      have hform : joinSep [' '] (w :: w2 :: rest2) =
          w ++ (' ' :: joinSep [' '] (w2 :: rest2)) := by
        simp [joinSep]
      have hjoin_ne : joinSep [' '] (w2 :: rest2) ≠ [] :=
        joinSep_ne_empty [' '] (w2 :: rest2) (by simp)
          (fun x hx => (h x (List.mem_cons_of_mem w hx)).1)
      constructor
      · rw [hform, wordCount, wcAux_append, wcAux_all_nonws false w hw.2]
        have hsp : wcAux (wcCarry false w) (' ' :: joinSep [' '] (w2 :: rest2)) =
            wcAux false (joinSep [' '] (w2 :: rest2)) := by
          simp [wcAux, isWsC]
        rw [hsp]
        have h1 := hrec.1
        rw [wordCount] at h1
        rw [h1]
        simp [hw.1]
        omega
      · intro _
        rw [hform, wcCarry_append]
        have h1 : wcCarry (wcCarry false w) (' ' :: joinSep [' '] (w2 :: rest2)) =
            wcCarry false (' ' :: joinSep [' '] (w2 :: rest2)) :=
          wcCarry_indep _ _ _ (by simp)
        rw [h1, wcCarry_cons]
        have h2 : wcCarry (!isWsC ' ') (joinSep [' '] (w2 :: rest2)) =
            wcCarry false (joinSep [' '] (w2 :: rest2)) :=
          wcCarry_indep _ _ _ hjoin_ne
        rw [h2]
        exact hrec.2 (by simp)

theorem rstripSet_decomp (bad : Char → Bool) (s : Str) :
    s = rstripSet bad s ++ (s.reverse.takeWhile bad).reverse ∧
    ∀ c ∈ (s.reverse.takeWhile bad).reverse, bad c = true := by
  constructor
  · rw [rstripSet]
    conv_lhs => rw [← List.reverse_reverse s,
      ← List.takeWhile_append_dropWhile bad s.reverse]
    rw [List.reverse_append]
  · intro c hc
    rw [List.mem_reverse] at hc
    exact List.mem_takeWhile_imp hc

/-- The trimmed text of `_trim_to_words` never exceeds the word budget
(for a positive budget). -/
theorem trim_to_words_le (text : Str) (n : Nat) (hn : 1 ≤ n) :
    wordCount (Llm.trim_to_words text n) ≤ n := by
  simp only [Llm.trim_to_words]
  split
  · next hle => rw [wordCount_eq_splitWs]; exact hle
  · next hgt =>
    have hlen : (List.take n (splitWs text)).length = n := by
      rw [List.length_take]
      omega
    have hwords : ∀ w ∈ List.take n (splitWs text), w ≠ [] ∧ ∀ c ∈ w, isWsC c = false :=
      fun w hw => splitWs_words text w (List.mem_of_mem_take hw)
    have htne : List.take n (splitWs text) ≠ [] := by
      intro hcon
      rw [hcon] at hlen
      simp at hlen
      omega
    obtain ⟨hjwc, hjcarry⟩ := wc_join_words (List.take n (splitWs text)) hwords
    have hjcarry2 := hjcarry htne
    rw [hlen] at hjwc
    set bad : Char → Bool := fun c => decide (c = ',' ∨ c = '.' ∨ c = ';' ∨ c = ':') with hbaddef
    set j := joinSep [' '] (List.take n (splitWs text)) with hjdef
    obtain ⟨hdecomp, hdall⟩ := rstripSet_decomp bad j
    set r := rstripSet bad j with hrdef
    set d := (j.reverse.takeWhile bad).reverse with hddef
    have hdnonws : ∀ c ∈ d, isWsC c = false := by
      intro c hc
      have := hdall c hc
      rw [hbaddef] at this
      simp only [decide_eq_true_eq] at this
      rcases this with rfl | rfl | rfl | rfl <;> decide
    have hsplit : wordCount j = wordCount r + wcAux (wcCarry false r) d := by
      conv_lhs => rw [wordCount, hdecomp]
      rw [wcAux_append]
      rfl
    have hell : isWsC '…' = false := by decide
    have hgoal : wordCount (r ++ ['…']) =
        wordCount r + wcAux (wcCarry false r) ['…'] := by
      rw [wordCount, wcAux_append]
      rfl
    have hellwc : wcAux (wcCarry false r) ['…'] =
        if wcCarry false r then 0 else 1 := by
      rw [wcAux_all_nonws _ _ (by intro c hc; simp at hc; rw [hc]; exact hell)]
      simp
    by_cases hd : d = []
    · have hjr : j = r := by rw [hdecomp, hd, List.append_nil]
      have hcr : wcCarry false r = true := by rw [← hjr]; exact hjcarry2
      rw [hgoal, hellwc, hcr]
      simp only [if_pos]
      rw [← hjr, hjwc]
      omega
    · have hdwc : wcAux (wcCarry false r) d =
          if wcCarry false r then 0 else 1 := by
        rw [wcAux_all_nonws _ _ hdnonws]
        simp [hd]
      rw [hgoal, hellwc]
      rw [hsplit, hdwc] at hjwc
      omega

theorem wordCount_dropWhile_ws (s : Str) :
    wordCount (s.dropWhile isWsC) = wordCount s := by
  induction s with
  | nil => rfl
  | cons c cs ih =>
    simp only [List.dropWhile, wordCount, wcAux]
    split
    · next h => rw [← wordCount, ih, wordCount]; simp [h]
    · next h => simp [h, wcAux]

theorem wordCount_rstrip_ws (s : Str) :
    wordCount ((s.reverse.dropWhile isWsC).reverse) = wordCount s := by
  obtain ⟨hdec, hall⟩ := rstripSet_decomp isWsC s
  rw [rstripSet] at hdec
  have h2 : wcAux false s =
      wcAux false ((s.reverse.dropWhile isWsC).reverse) +
        wcAux (wcCarry false ((s.reverse.dropWhile isWsC).reverse))
          ((s.reverse.takeWhile isWsC).reverse) := by
    conv_lhs => rw [hdec]
    exact wcAux_append false _ _
  show wcAux false _ = wcAux false s
  rw [h2, wcAux_all_ws _ _ hall]
  omega

theorem wordCount_strip (s : Str) : wordCount (stripCh s) = wordCount s := by
  rw [stripCh, wordCount_rstrip_ws, wordCount_dropWhile_ws]

theorem natDigitsGo_nonws (fuel : Nat) : ∀ n, ∀ c ∈ natDigitsGo fuel n, isWsC c = false := by
  induction fuel with
  | zero => simp [natDigitsGo]
  | succ f ih =>
    intro n c hc
    simp only [natDigitsGo] at hc
    split at hc
    · next h =>
      simp only [List.mem_singleton] at hc
      subst hc
      interval_cases n <;> decide
    · rcases List.mem_append.mp hc with h1 | h2
      · exact ih _ c h1
      · simp only [List.mem_singleton] at h2
        subst h2
        have hm : n % 10 < 10 := Nat.mod_lt _ (by norm_num)
        set m := n % 10 with hmdef
        interval_cases m <;> decide

theorem marker_nonws (i : Nat) :
    ∀ c ∈ '[' :: natRepr i ++ [']'], isWsC c = false := by
  intro c hc
  rcases List.mem_cons.mp hc with rfl | hc2
  · decide
  · rcases List.mem_append.mp hc2 with h1 | h2
    · exact natDigitsGo_nonws _ _ c h1
    · simp only [List.mem_singleton] at h2
      subst h2
      decide

theorem cites_nonws (used : List Nat) :
    ∀ c ∈ joinSep [] (used.map (fun i => '[' :: natRepr i ++ [']'])), isWsC c = false := by
  induction used with
  | nil => simp [joinSep]
  | cons i rest ih =>
    cases rest with
    | nil =>
      intro c hc
      simp only [List.map, joinSep] at hc
      exact marker_nonws i c hc
    | cons i2 rest2 =>
      intro c hc
      simp only [List.map, joinSep, List.append_nil] at hc
      rcases List.mem_append.mp hc with h1 | h2
      · exact marker_nonws i c h1
      · exact ih c (by simpa [joinSep] using h2)

theorem smalltalk_cases (q s : Str) (h : Llm.smalltalk_or_none q = some s) :
    s = "Hey! 👋 What would you like to explore?".toList ∨
    s = "Doing well—curious as ever. What can I help you dig into?".toList ∨
    s = "You’re welcome!".toList ∨
    s = "Bye! If another question pops up, I’m here.".toList := by
  simp only [Llm.smalltalk_or_none] at h
  split_ifs at h <;> simp only [Option.some.injEq] at h <;> tauto

set_option maxRecDepth 10000 in
set_option maxHeartbeats 1000000 in
/-- Counterexample to claim C3 as stated: a strict query overlapping a
61-word context produces an answer of 61 whitespace-separated words — the
60-word trim happens before the citation marker token is appended. -/
theorem c3_counterexample :
    60 < wordCount (Llm.synthesize_answer "alpha beta".toList
      ["alpha beta".toList ++ (List.replicate 59 [' ', 'z']).flatten] true).1 := by
  decide

/-- Claim C3 (amended): the fused answer body is trimmed to at most 60
words; the full returned answer — the body plus at most one extra
whitespace-separated token holding the concatenated `[n]` citation
markers — never exceeds 61 words. -/
theorem c3_word_budget (query : Str) (ctxs : List Str) (strict : Bool) :
    wordCount (Llm.synthesize_answer query ctxs strict).1 ≤ 61 ∧
    wordCount (Llm.trim_to_words (joinSep [' '] (Llm.chosenSents query ctxs)) 60) ≤ 60 := by
  have htrim := trim_to_words_le (joinSep [' '] (Llm.chosenSents query ctxs)) 60 (by norm_num)
  refine ⟨?_, htrim⟩
  unfold Llm.synthesize_answer
  cases hm : (if strict then none else Llm.smalltalk_or_none query) with
  | some chit =>
    have hsome : Llm.smalltalk_or_none query = some chit := by
      cases strict
      · simpa using hm
      · simp at hm
    show wordCount chit ≤ 61
    rcases smalltalk_cases query chit hsome with rfl | rfl | rfl | rfl <;> decide
  | none =>
    split_ifs with h1 h2 h3
    · decide
    · decide
    · decide
    · rw [wordCount_strip]
      rw [show Llm.trim_to_words (joinSep [' '] (Llm.chosenSents query ctxs)) 60 ++ [' '] ++
            joinSep [] ((Llm.usedIdxs query ctxs).map
              (fun i => '[' :: natRepr i ++ [']'])) =
          Llm.trim_to_words (joinSep [' '] (Llm.chosenSents query ctxs)) 60 ++
            (' ' :: joinSep [] ((Llm.usedIdxs query ctxs).map
              (fun i => '[' :: natRepr i ++ [']']))) from by simp]
      rw [wordCount, wcAux_append]
      have hsp : wcAux (wcCarry false
            (Llm.trim_to_words (joinSep [' '] (Llm.chosenSents query ctxs)) 60))
          (' ' :: joinSep [] ((Llm.usedIdxs query ctxs).map
            (fun i => '[' :: natRepr i ++ [']']))) =
          wcAux false (joinSep [] ((Llm.usedIdxs query ctxs).map
            (fun i => '[' :: natRepr i ++ [']']))) := by
        simp [wcAux, isWsC]
      rw [hsp]
      have hcit : wcAux false (joinSep [] ((Llm.usedIdxs query ctxs).map
          (fun i => '[' :: natRepr i ++ [']']))) ≤ 1 := by
        rw [wcAux_all_nonws false _ (cites_nonws _)]
        split
        · simp
        · simp
      have hf : wcAux false
          (Llm.trim_to_words (joinSep [' '] (Llm.chosenSents query ctxs)) 60) ≤ 60 := htrim
      omega

/-! ## C5: properties of `_mmr` -/

theorem mmrLoop_succ (nrm : List ℚ → ℚ) (cv : List (List ℚ)) (qv : List ℚ) (lam : ℚ)
    (tk fuel : Nat) (sel rem : List Nat) :
    Ret.mmrLoop nrm cv qv lam tk (fuel + 1) sel rem =
      if rem = [] ∨ tk ≤ sel.length then sel
      else if sel = [] then
        Ret.mmrLoop nrm cv qv lam tk fuel (sel ++ [argmaxD (Ret.q_simF nrm cv qv) 0 rem])
          (rem.erase (argmaxD (Ret.q_simF nrm cv qv) 0 rem))
      else
        Ret.mmrLoop nrm cv qv lam tk fuel
          (sel ++ [argmaxD (Ret.mmr_score nrm cv qv lam sel) 0 rem])
          (rem.erase (argmaxD (Ret.mmr_score nrm cv qv lam sel) 0 rem)) := rfl

theorem mmrLoop_spec (nrm : List ℚ → ℚ) (cv : List (List ℚ)) (qv : List ℚ) (lam : ℚ)
    (tk : Nat) : ∀ (fuel : Nat) (sel rem : List Nat), rem.Nodup →
    ∃ suf, Ret.mmrLoop nrm cv qv lam tk fuel sel rem = sel ++ suf ∧
      (∀ x ∈ suf, x ∈ rem) ∧ suf.Nodup ∧
      sel.length + suf.length ≤ max sel.length tk ∧ suf.length ≤ rem.length := by
  intro fuel
  induction fuel with
  | zero =>
    intro sel rem _
    exact ⟨[], by simp [Ret.mmrLoop], by simp, by simp, by simp, by simp⟩
  | succ f ih =>
    intro sel rem hrem
    rw [mmrLoop_succ]
    split
    · exact ⟨[], by simp, by simp, by simp, by simp, by simp⟩
    · next hcond =>
      have hrne : rem ≠ [] := fun hc => hcond (Or.inl hc)
      have hlt : sel.length < tk := by
        by_contra hge
        exact hcond (Or.inr (by omega))
      split
      · next hsel =>
        obtain ⟨suf, heq, hsub, hnd, hlen, hlen2⟩ :=
          ih (sel ++ [argmaxD (Ret.q_simF nrm cv qv) 0 rem])
            (rem.erase (argmaxD (Ret.q_simF nrm cv qv) 0 rem)) (hrem.erase _)
        have hi : argmaxD (Ret.q_simF nrm cv qv) 0 rem ∈ rem := argmaxD_mem _ _ _ hrne
        refine ⟨argmaxD (Ret.q_simF nrm cv qv) 0 rem :: suf, by rw [heq]; simp, ?_, ?_, ?_, ?_⟩
        · intro x hx
          rcases List.mem_cons.mp hx with rfl | hx2
          · exact hi
          · exact List.mem_of_mem_erase (hsub x hx2)
        · refine List.nodup_cons.mpr ⟨?_, hnd⟩
          intro hin
          exact (((hrem.mem_erase_iff).mp (hsub _ hin)).1) rfl
        · simp only [List.length_append, List.length_singleton] at hlen
          simp only [List.length_cons]
          omega
        · have he := List.length_erase (argmaxD (Ret.q_simF nrm cv qv) 0 rem) rem
          rw [if_pos hi] at he
          rw [he] at hlen2
          have : 1 ≤ rem.length := by
            cases rem
            · simp at hrne
            · simp
          simp only [List.length_cons]
          omega
      · next hsel =>
        obtain ⟨suf, heq, hsub, hnd, hlen, hlen2⟩ :=
          ih (sel ++ [argmaxD (Ret.mmr_score nrm cv qv lam sel) 0 rem])
            (rem.erase (argmaxD (Ret.mmr_score nrm cv qv lam sel) 0 rem)) (hrem.erase _)
        have hi : argmaxD (Ret.mmr_score nrm cv qv lam sel) 0 rem ∈ rem :=
          argmaxD_mem _ _ _ hrne
        refine ⟨argmaxD (Ret.mmr_score nrm cv qv lam sel) 0 rem :: suf,
          by rw [heq]; simp, ?_, ?_, ?_, ?_⟩
        · intro x hx
          rcases List.mem_cons.mp hx with rfl | hx2
          · exact hi
          · exact List.mem_of_mem_erase (hsub x hx2)
        · refine List.nodup_cons.mpr ⟨?_, hnd⟩
          intro hin
          exact (((hrem.mem_erase_iff).mp (hsub _ hin)).1) rfl
        · simp only [List.length_append, List.length_singleton] at hlen
          simp only [List.length_cons]
          omega
        · have he := List.length_erase (argmaxD (Ret.mmr_score nrm cv qv lam sel) 0 rem) rem
          rw [if_pos hi] at he
          rw [he] at hlen2
          have : 1 ≤ rem.length := by
            cases rem
            · simp at hrne
            · simp
          simp only [List.length_cons]
          omega

theorem mmrSel_head (nrm : List ℚ → ℚ) (cv : List (List ℚ)) (qv : List ℚ) (lam : ℚ)
    (tk n : Nat) (hn : 0 < n) (htk : 0 < tk) :
    ∃ suf, Ret.mmrSel nrm cv qv lam tk n =
      argmaxD (Ret.q_simF nrm cv qv) 0 (List.range n) :: suf := by
  unfold Ret.mmrSel
  cases n with
  | zero => omega
  | succ m =>
    rw [mmrLoop_succ]
    rw [if_neg (by simp; omega), if_pos rfl]
    obtain ⟨suf, heq, _, _, _, _⟩ :=
      mmrLoop_spec nrm cv qv lam tk m
        ([] ++ [argmaxD (Ret.q_simF nrm cv qv) 0 (List.range (m + 1))])
        ((List.range (m + 1)).erase (argmaxD (Ret.q_simF nrm cv qv) 0 (List.range (m + 1))))
        ((List.nodup_range _).erase _)
    exact ⟨suf, by rw [heq]; simp⟩

theorem mmrLoop_lambda1_antitone (nrm : List ℚ → ℚ) (cv : List (List ℚ)) (qv : List ℚ)
    (tk : Nat) : ∀ (fuel : Nat) (sel rem : List Nat),
    List.Pairwise (fun a b => Ret.q_simF nrm cv qv b ≤ Ret.q_simF nrm cv qv a) sel →
    (∀ a ∈ sel, ∀ r ∈ rem, Ret.q_simF nrm cv qv r ≤ Ret.q_simF nrm cv qv a) →
    List.Pairwise (fun a b => Ret.q_simF nrm cv qv b ≤ Ret.q_simF nrm cv qv a)
      (Ret.mmrLoop nrm cv qv 1 tk fuel sel rem) := by
  intro fuel
  induction fuel with
  | zero =>
    intro sel rem h1 _
    simpa [Ret.mmrLoop] using h1
  | succ f ih =>
    intro sel rem h1 h2
    rw [mmrLoop_succ]
    split
    · exact h1
    · next hcond =>
      have hrne : rem ≠ [] := fun hc => hcond (Or.inl hc)
      split
      · next hsel =>
        subst hsel
        apply ih
        · simp
        · intro a ha r hr
          simp only [List.nil_append, List.mem_singleton] at ha
          subst ha
          exact argmaxD_le _ _ _ r (List.mem_of_mem_erase hr)
      · next hsel =>
        have hkey : argmaxD (Ret.mmr_score nrm cv qv 1 sel) 0 rem =
            argmaxD (Ret.q_simF nrm cv qv) 0 rem := by
          apply argmaxD_congr
          intro a _
          unfold Ret.mmr_score
          ring
        rw [hkey]
        apply ih
        · rw [List.pairwise_append]
          refine ⟨h1, by simp, ?_⟩
          intro a ha b hb
          simp only [List.mem_singleton] at hb
          subst hb
          exact h2 a ha _ (argmaxD_mem _ _ _ hrne)
        · intro a ha r hr
          rcases List.mem_append.mp ha with ha2 | ha2
          · exact h2 a ha2 r (List.mem_of_mem_erase hr)
          · simp only [List.mem_singleton] at ha2
            subst ha2
            exact argmaxD_le _ _ _ r (List.mem_of_mem_erase hr)

/-- Counterexample to claim C5 as stated: on the duplicate candidate list
`[7, 7]`, `_mmr` returns the position 7 twice (the norm capability is the
exact Euclidean norm of `[1]`, namely `1`). -/
theorem c5_counterexample :
    Ret.mmr (fun _ => 1) [(1 : ℚ)] [[(1 : ℚ)], [(1 : ℚ)]] [7, 7] 2 (7 / 10) = [7, 7] ∧
    ¬ (Ret.mmr (fun _ => 1) [(1 : ℚ)] [[(1 : ℚ)], [(1 : ℚ)]] [7, 7] 2 (7 / 10)).Nodup := by
  have hq : Ret.q_simF (fun _ => 1) [[(1 : ℚ)], [(1 : ℚ)]] [(1 : ℚ)] 0 =
      Ret.q_simF (fun _ => 1) [[(1 : ℚ)], [(1 : ℚ)]] [(1 : ℚ)] 1 := by
    simp [Ret.q_simF, Ret.cosSim, VS.innerProd]
  have h1 : argmaxD (Ret.q_simF (fun _ => 1) [[(1 : ℚ)], [(1 : ℚ)]] [(1 : ℚ)]) 0 [0, 1] = 0 := by
    simp only [argmaxD, hq]
    norm_num
  have hmain : Ret.mmr (fun _ => 1) [(1 : ℚ)] [[(1 : ℚ)], [(1 : ℚ)]] [7, 7] 2 (7 / 10)
      = [7, 7] := by
    show List.map (fun i => ([7, 7] : List Nat).getD i 0)
        (Ret.mmrLoop (fun _ => 1) [[(1 : ℚ)], [(1 : ℚ)]] [(1 : ℚ)] (7 / 10) 2 2 [] [0, 1])
      = [7, 7]
    rw [mmrLoop_succ, if_neg (by simp), if_pos rfl, h1]
    rw [show (([] : List Nat) ++ [0]) = [0] from rfl,
      show ([0, 1] : List Nat).erase 0 = [1] from rfl]
    rw [mmrLoop_succ, if_neg (by simp), if_neg (by simp)]
    rw [show argmaxD
        (Ret.mmr_score (fun _ => 1) [[(1 : ℚ)], [(1 : ℚ)]] [(1 : ℚ)] (7 / 10) [0]) 0 [1] = 1
      from rfl]
    rfl
  exact ⟨hmain, by rw [hmain]; decide⟩

/-- Claim C5 (amended): `_mmr` returns at most `min(top_k, |candidates|)`
positions; provided the candidate list itself has no duplicate position,
no position is repeated; the first pick maximises query similarity; and
with `lambda = 1` the query similarities along the selection order are
non-increasing (pure descending similarity ranking). -/
theorem c5_mmr_properties (nrm : List ℚ → ℚ) (qv : List ℚ) (cv : List (List ℚ))
    (cand_idxs : List Nat) (tk : Nat) (lam : ℚ) :
    (Ret.mmr nrm qv cv cand_idxs tk lam).length ≤ min tk cand_idxs.length ∧
    (cand_idxs.Nodup → (Ret.mmr nrm qv cv cand_idxs tk lam).Nodup) ∧
    (0 < tk → cand_idxs ≠ [] →
      (Ret.mmr nrm qv cv cand_idxs tk lam).head? =
        some (cand_idxs.getD (argmaxD (Ret.q_simF nrm cv qv) 0
          (List.range cand_idxs.length)) 0) ∧
      argmaxD (Ret.q_simF nrm cv qv) 0 (List.range cand_idxs.length) < cand_idxs.length ∧
      ∀ j < cand_idxs.length, Ret.q_simF nrm cv qv j ≤
        Ret.q_simF nrm cv qv (argmaxD (Ret.q_simF nrm cv qv) 0
          (List.range cand_idxs.length))) ∧
    (lam = 1 → List.Pairwise
      (fun a b => Ret.q_simF nrm cv qv b ≤ Ret.q_simF nrm cv qv a)
      (Ret.mmrSel nrm cv qv lam tk cand_idxs.length)) := by
  obtain ⟨suf, heq, hsub, hnd, hlen, hlen2⟩ :=
    mmrLoop_spec nrm cv qv lam tk cand_idxs.length [] (List.range cand_idxs.length)
      (List.nodup_range _)
  have hsel : Ret.mmrSel nrm cv qv lam tk cand_idxs.length = suf := by
    unfold Ret.mmrSel
    simpa using heq
  refine ⟨?_, ?_, ?_, ?_⟩
  · unfold Ret.mmr
    split
    · simp
    · rw [List.length_map, hsel]
      simp only [List.length_nil] at hlen
      have := List.length_range cand_idxs.length
      omega
  · intro hcnd
    unfold Ret.mmr
    split
    · simp
    · rw [hsel]
      apply List.Nodup.map_on _ hnd
      intro x hx y hy hxy
      have hxr : x < cand_idxs.length := List.mem_range.mp (hsub x hx)
      have hyr : y < cand_idxs.length := List.mem_range.mp (hsub y hy)
      rw [List.getD_eq_getElem _ _ hxr, List.getD_eq_getElem _ _ hyr] at hxy
      exact (hcnd.getElem_inj_iff).mp hxy
  · intro htk hne
    have hn : 0 < cand_idxs.length := List.length_pos.mpr hne
    obtain ⟨suf2, hhead⟩ := mmrSel_head nrm cv qv lam tk cand_idxs.length hn htk
    have hrne : List.range cand_idxs.length ≠ [] := by
      rw [ne_eq, List.range_eq_nil]
      omega
    have hi0 : argmaxD (Ret.q_simF nrm cv qv) 0 (List.range cand_idxs.length) ∈
        List.range cand_idxs.length :=
      argmaxD_mem _ _ _ hrne
    refine ⟨?_, List.mem_range.mp hi0, ?_⟩
    · unfold Ret.mmr
      rw [if_neg hne, hhead]
      simp
    · intro j hj
      exact argmaxD_le _ _ _ j (List.mem_range.mpr hj)
  · intro hlam
    subst hlam
    exact mmrLoop_lambda1_antitone nrm cv qv tk _ [] (List.range cand_idxs.length)
      (by simp) (by simp)

theorem c5_mmr_properties_witness :
    ([5, 9] : List Nat).Nodup ∧
    (Ret.mmr (fun _ => 1) [(1 : ℚ)] [[(1 : ℚ)], [(2 : ℚ)]] [5, 9] 2 (7 / 10)).length ≤
      min 2 ([5, 9] : List Nat).length ∧
    (Ret.mmr (fun _ => 1) [(1 : ℚ)] [[(1 : ℚ)], [(2 : ℚ)]] [5, 9] 2 (7 / 10)).Nodup := by
  have h := c5_mmr_properties (fun _ => 1) [(1 : ℚ)] [[(1 : ℚ)], [(2 : ℚ)]] [5, 9] 2 (7 / 10)
  exact ⟨by decide, h.1, h.2.1 (by decide)⟩

/-! ## C4: Reciprocal Rank Fusion -/

theorem insertB_sorted_scoreGt (x : Nat × ℚ) (acc : List (Nat × ℚ))
    (h : acc.Pairwise (fun a b => b.2 ≤ a.2)) :
    (insertB Ret.scoreGt x acc).Pairwise (fun a b => b.2 ≤ a.2) := by
  induction acc with
  | nil => simp [insertB]
  | cons y ys ih =>
    simp only [insertB]
    split
    · next hgt =>
      have hxy : y.2 < x.2 := by simpa [Ret.scoreGt] using hgt
      refine List.pairwise_cons.mpr ⟨?_, h⟩
      intro b hb
      rcases List.mem_cons.mp hb with rfl | hb2
      · exact le_of_lt hxy
      · exact ((List.pairwise_cons.mp h).1 b hb2).trans (le_of_lt hxy)
    · next hng =>
      have hxy : x.2 ≤ y.2 := le_of_not_lt (by simpa [Ret.scoreGt] using hng)
      obtain ⟨hy, hys⟩ := List.pairwise_cons.mp h
      refine List.pairwise_cons.mpr ⟨?_, ih hys⟩
      intro b hb
      have hmem := (insertB_perm Ret.scoreGt x ys).mem_iff.mp hb
      rcases List.mem_cons.mp hmem with rfl | hb2
      · exact hxy
      · exact hy b hb2

theorem insertB_filter_scoreGt (x : Nat × ℚ) (acc : List (Nat × ℚ)) (s : ℚ)
    (h : acc.Pairwise (fun a b => b.2 ≤ a.2)) :
    (insertB Ret.scoreGt x acc).filter (fun p => p.2 = s) =
      acc.filter (fun p => p.2 = s) ++ [x].filter (fun p => p.2 = s) := by
  induction acc with
  | nil => simp [insertB]
  | cons y ys ih =>
    simp only [insertB]
    split
    · next hgt =>
      have hxy : y.2 < x.2 := by simpa [Ret.scoreGt] using hgt
      by_cases hxs : x.2 = s
      · have hnone : ∀ z ∈ y :: ys, ¬ (z.2 = s) := by
          intro z hz
          rcases List.mem_cons.mp hz with rfl | hz2
          · intro hc; rw [← hxs] at hc; exact absurd hc (ne_of_lt hxy)
          · intro hc
            have hle := (List.pairwise_cons.mp h).1 z hz2
            rw [hc, ← hxs] at hle
            exact absurd (lt_of_lt_of_le hxy hle) (lt_irrefl _)
        have hfe : (y :: ys).filter (fun p => p.2 = s) = [] := by
          rw [List.filter_eq_nil_iff]
          intro z hz
          simpa using hnone z hz
        rw [List.filter_cons, hfe]
        simp [hxs]
      · rw [List.filter_cons]
        simp [hxs]
    · next hng =>
      obtain ⟨_, hys⟩ := List.pairwise_cons.mp h
      rw [List.filter_cons, List.filter_cons]
      split
      · rw [ih hys]
        simp
      · exact ih hys

theorem isortAux_sorted_filter_scoreGt (l : List (Nat × ℚ)) :
    ∀ acc : List (Nat × ℚ), acc.Pairwise (fun a b => b.2 ≤ a.2) →
    (isortAux Ret.scoreGt acc l).Pairwise (fun a b => b.2 ≤ a.2) ∧
    ∀ s, (isortAux Ret.scoreGt acc l).filter (fun p => p.2 = s) =
      acc.filter (fun p => p.2 = s) ++ l.filter (fun p => p.2 = s) := by
  induction l with
  | nil =>
    intro acc h
    exact ⟨h, fun s => by simp [isortAux]⟩
  | cons x xs ih =>
    intro acc h
    obtain ⟨hp, hf⟩ := ih (insertB Ret.scoreGt x acc) (insertB_sorted_scoreGt x acc h)
    refine ⟨hp, fun s => ?_⟩
    show (isortAux Ret.scoreGt (insertB Ret.scoreGt x acc) xs).filter (fun p => p.2 = s) = _
    rw [hf s, insertB_filter_scoreGt x acc s h, List.filter_cons, List.append_assoc]
    congr 1
    split
    · next hxs => simp [List.filter_cons, hxs]
    · next hxs => simp [List.filter_cons, hxs]

theorem isort_scoreGt_spec (l : List (Nat × ℚ)) :
    (isort Ret.scoreGt l).Pairwise (fun a b => b.2 ≤ a.2) ∧
    ∀ s, (isort Ret.scoreGt l).filter (fun p => p.2 = s) = l.filter (fun p => p.2 = s) := by
  have h := isortAux_sorted_filter_scoreGt l [] (by simp)
  refine ⟨h.1, fun s => ?_⟩
  have := h.2 s
  simpa [isort] using this

theorem rrfUpd_lookup (f : List (Nat × ℚ)) (idx : Nat) (v : ℚ) (j : Nat) :
    List.lookup j (Ret.rrfUpd f idx v) =
      if j = idx then some ((List.lookup j f).getD 0 + v) else List.lookup j f := by
  induction f with
  | nil =>
    by_cases hji : j = idx
    · subst hji
      simp [Ret.rrfUpd, List.lookup]
    · have hb : (j == idx) = false := beq_eq_false_iff_ne.mpr hji
      simp [Ret.rrfUpd, List.lookup, hb, hji]
  | cons p rest ih =>
    obtain ⟨p1, p2⟩ := p
    simp only [Ret.rrfUpd]
    split
    · next hp =>
      subst hp
      by_cases hji : j = p1
      · subst hji
        simp [List.lookup]
      · have hb : (j == p1) = false := beq_eq_false_iff_ne.mpr hji
        simp [List.lookup, hb, hji]
    · next hp =>
      by_cases hjp : j = p1
      · have hb : (j == p1) = true := beq_iff_eq.mpr hjp
        have hji : ¬ j = idx := fun hc => hp (by rw [← hjp]; exact hc)
        simp [List.lookup, hb, hji]
      · have hb : (j == p1) = false := beq_eq_false_iff_ne.mpr hjp
        simp only [List.lookup, hb]
        exact ih

theorem rrf_pass_lookup (k : ℚ) (rl : List Nat) : ∀ (r0 : Nat) (f : List (Nat × ℚ)) (j : Nat),
    rl.Nodup →
    List.lookup j ((List.enumFrom r0 rl).foldl
        (fun f p => Ret.rrfUpd f p.2 (1 / (k + (p.1 : ℚ) + 1))) f) =
      (if j ∈ rl then
        some ((List.lookup j f).getD 0 + 1 / (k + ((r0 + rl.indexOf j : Nat) : ℚ) + 1))
      else List.lookup j f) := by
  induction rl with
  | nil => simp
  | cons i is ih =>
    intro r0 f j hnd
    rw [List.enumFrom_cons, List.foldl_cons]
    obtain ⟨hnotin, hnd2⟩ := List.nodup_cons.mp hnd
    by_cases hji : j = i
    · subst hji
      rw [ih (r0 + 1) _ j hnd2, if_neg hnotin, rrfUpd_lookup, if_pos rfl,
        if_pos (List.mem_cons_self j is)]
      rw [List.indexOf_cons_self]
      norm_num
    · rw [ih (r0 + 1) _ j hnd2, rrfUpd_lookup, if_neg hji]
      by_cases hmem : j ∈ is
      · rw [if_pos hmem, if_pos (List.mem_cons.mpr (Or.inr hmem))]
        rw [List.indexOf_cons_ne _ (fun hc => hji hc.symm)]
        congr 2
        push_cast
        ring
      · rw [if_neg hmem, if_neg (by
          intro hc
          rcases List.mem_cons.mp hc with hc2 | hc2
          · exact hji hc2
          · exact hmem hc2)]

theorem rrf_foldl_lookup (k : ℚ) (ranks : List (List Nat)) :
    ∀ (f : List (Nat × ℚ)) (j : Nat), (∀ l ∈ ranks, l.Nodup) →
    (List.lookup j (ranks.foldl (fun fused rlist => (rlist.enum).foldl
        (fun f p => Ret.rrfUpd f p.2 (1 / (k + (p.1 : ℚ) + 1))) fused) f)).getD 0 =
      (List.lookup j f).getD 0 +
        (ranks.map (fun l => if j ∈ l then 1 / (k + (l.indexOf j : ℚ) + 1) else 0)).sum := by
  induction ranks with
  | nil => intro f j _; simp
  | cons rl rest ih =>
    intro f j h
    rw [List.foldl_cons, List.map_cons, List.sum_cons]
    rw [ih _ j (fun l hl => h l (List.mem_cons_of_mem rl hl))]
    have hpass := rrf_pass_lookup k rl 0 f j (h rl (List.mem_cons_self rl rest))
    rw [show rl.enum = List.enumFrom 0 rl from rfl, hpass]
    by_cases hmem : j ∈ rl
    · rw [if_pos hmem]
      simp only [Option.getD_some, if_pos hmem]
      push_cast
      ring
    · rw [if_neg hmem, if_neg hmem]
      ring

/-- The fused score of `_rrf` at any position, under duplicate-free rank
lists, is the claimed sum of reciprocal ranks. -/
theorem rrf_score_formula (ranks : List (List Nat)) (h : ∀ l ∈ ranks, l.Nodup) (j : Nat) :
    (List.lookup j (Ret.rrf ranks 60)).getD 0 =
      (ranks.map (fun l => if j ∈ l then 1 / (60 + (l.indexOf j : ℚ) + 1) else 0)).sum := by
  have := rrf_foldl_lookup 60 ranks [] j h
  simpa [Ret.rrf] using this

theorem lookup_append_of_none {α β : Type _} [BEq α] (a : α) (l1 l2 : List (α × β))
    (h1 : List.lookup a l1 = none) : List.lookup a (l1 ++ l2) = List.lookup a l2 := by
  induction l1 with
  | nil => simp
  | cons p rest ih =>
    obtain ⟨p1, p2⟩ := p
    simp only [List.lookup, List.cons_append] at h1 ⊢
    cases hb : (a == p1) with
    | true => rw [hb] at h1; simp at h1
    | false =>
      rw [hb] at h1
      simp only at h1 ⊢
      exact ih h1

theorem rrfUpd_fresh (f : List (Nat × ℚ)) (idx : Nat) (v : ℚ)
    (h : List.lookup idx f = none) :
    Ret.rrfUpd f idx v = f ++ [(idx, v)] := by
  induction f with
  | nil => rfl
  | cons p rest ih =>
    obtain ⟨p1, p2⟩ := p
    simp only [Ret.rrfUpd]
    have hne : ¬ p1 = idx := by
      intro hc
      subst hc
      simp [List.lookup] at h
    rw [if_neg hne]
    have h2 : List.lookup idx rest = none := by
      have hb : (idx == p1) = false := beq_eq_false_iff_ne.mpr (fun hc => hne hc.symm)
      simpa [List.lookup, hb] using h
    rw [ih h2]
    simp

theorem rrfUpd_aligned (pre : List (Nat × ℚ)) (idx : Nat) (s v : ℚ) (rest : List (Nat × ℚ))
    (h : List.lookup idx pre = none) :
    Ret.rrfUpd (pre ++ (idx, s) :: rest) idx v = pre ++ (idx, s + v) :: rest := by
  induction pre with
  | nil => simp [Ret.rrfUpd]
  | cons p pre2 ih =>
    obtain ⟨p1, p2⟩ := p
    have hne : ¬ p1 = idx := by
      intro hc
      subst hc
      simp [List.lookup] at h
    simp only [List.cons_append, Ret.rrfUpd, if_neg hne]
    have h2 : List.lookup idx pre2 = none := by
      have hb : (idx == p1) = false := beq_eq_false_iff_ne.mpr (fun hc => hne hc.symm)
      simpa [List.lookup, hb] using h
    simp only [List.append_eq]
    rw [ih h2]

theorem rrf_pass_fresh (k : ℚ) (rl : List Nat) : ∀ (r0 : Nat) (f : List (Nat × ℚ)),
    rl.Nodup → (∀ i ∈ rl, List.lookup i f = none) →
    (List.enumFrom r0 rl).foldl (fun f p => Ret.rrfUpd f p.2 (1 / (k + (p.1 : ℚ) + 1))) f =
      f ++ (List.enumFrom r0 rl).map (fun p => (p.2, 1 / (k + (p.1 : ℚ) + 1))) := by
  induction rl with
  | nil => intro r0 f _ _; simp
  | cons i is ih =>
    intro r0 f hnd hfresh
    rw [List.enumFrom_cons, List.foldl_cons]
    obtain ⟨hnotin, hnd2⟩ := List.nodup_cons.mp hnd
    rw [rrfUpd_fresh f i _ (hfresh i (List.mem_cons_self i is))]
    rw [ih (r0 + 1) _ hnd2 (by
      intro x hx
      rw [lookup_append_of_none x f _ (hfresh x (List.mem_cons_of_mem i hx))]
      have hb : (x == i) = false :=
        beq_eq_false_iff_ne.mpr (fun hc => hnotin (hc ▸ hx))
      simp [List.lookup, hb])]
    simp

theorem rrf_pass_aligned (k : ℚ) (g : Nat → ℚ) (rl : List Nat) :
    ∀ (r0 : Nat) (pre : List (Nat × ℚ)),
    rl.Nodup → (∀ i ∈ rl, List.lookup i pre = none) →
    (List.enumFrom r0 rl).foldl (fun f p => Ret.rrfUpd f p.2 (1 / (k + (p.1 : ℚ) + 1)))
        (pre ++ (List.enumFrom r0 rl).map (fun p => (p.2, g p.1))) =
      pre ++ (List.enumFrom r0 rl).map
        (fun p => (p.2, g p.1 + 1 / (k + (p.1 : ℚ) + 1))) := by
  induction rl with
  | nil => intro r0 pre _ _; simp
  | cons i is ih =>
    intro r0 pre hnd hfresh
    obtain ⟨hnotin, hnd2⟩ := List.nodup_cons.mp hnd
    rw [List.enumFrom_cons, List.foldl_cons, List.map_cons]
    rw [rrfUpd_aligned pre i _ _ _ (hfresh i (List.mem_cons_self i is))]
    have hacc : pre ++ (i, g r0 + 1 / (k + (r0 : ℚ) + 1)) ::
        (List.enumFrom (r0 + 1) is).map (fun p => (p.2, g p.1)) =
        (pre ++ [(i, g r0 + 1 / (k + (r0 : ℚ) + 1))]) ++
          (List.enumFrom (r0 + 1) is).map (fun p => (p.2, g p.1)) := by
      simp
    rw [hacc, ih (r0 + 1) _ hnd2 (by
      intro x hx
      rw [lookup_append_of_none x pre _ (hfresh x (List.mem_cons_of_mem i hx))]
      have hb : (x == i) = false :=
        beq_eq_false_iff_ne.mpr (fun hc => hnotin (hc ▸ hx))
      simp [List.lookup, hb])]
    rw [List.map_cons]
    simp

theorem rrf_double (k : ℚ) (l : List Nat) (hnd : l.Nodup) :
    Ret.rrf [l, l] k = (l.enum).map
      (fun p => (p.2, 1 / (k + (p.1 : ℚ) + 1) + 1 / (k + (p.1 : ℚ) + 1))) := by
  show (([l, l] : List (List Nat)).foldl (fun fused rlist => (rlist.enum).foldl
      (fun f p => Ret.rrfUpd f p.2 (1 / (k + (p.1 : ℚ) + 1))) fused) []) = _
  rw [List.foldl_cons, List.foldl_cons, List.foldl_nil]
  rw [show l.enum = List.enumFrom 0 l from rfl]
  rw [rrf_pass_fresh k l 0 [] hnd (by simp), List.nil_append]
  exact rrf_pass_aligned k (fun r => 1 / (k + (r : ℚ) + 1)) l 0 [] hnd (by simp)

theorem insertB_append_end (x : Nat × ℚ) (acc : List (Nat × ℚ))
    (h : ∀ y ∈ acc, Ret.scoreGt x y = false) :
    insertB Ret.scoreGt x acc = acc ++ [x] := by
  induction acc with
  | nil => rfl
  | cons y ys ih =>
    simp only [insertB]
    rw [if_neg (by rw [h y (List.mem_cons_self y ys)]; simp)]
    rw [ih (fun z hz => h z (List.mem_cons_of_mem y hz))]
    rfl

theorem isortAux_strict (l : List (Nat × ℚ)) : ∀ acc : List (Nat × ℚ),
    List.Pairwise (fun a b => b.2 < a.2) (acc ++ l) →
    isortAux Ret.scoreGt acc l = acc ++ l := by
  induction l with
  | nil => intro acc _; simp [isortAux]
  | cons x xs ih =>
    intro acc hp
    show isortAux Ret.scoreGt (insertB Ret.scoreGt x acc) xs = _
    have hend : insertB Ret.scoreGt x acc = acc ++ [x] := by
      apply insertB_append_end
      intro y hy
      have hxy : x.2 < y.2 :=
        (List.pairwise_append.mp hp).2.2 y hy x (List.mem_cons_self x xs)
      simp [Ret.scoreGt, not_lt.mpr (le_of_lt hxy)]
    rw [hend, ih (acc ++ [x]) (by simpa using hp)]
    simp

theorem isort_strict (l : List (Nat × ℚ))
    (h : List.Pairwise (fun a b => b.2 < a.2) l) :
    isort Ret.scoreGt l = l := by
  have := isortAux_strict l [] (by simpa using h)
  simpa [isort] using this

theorem enumFrom_fst_le (l : List α) : ∀ (n : Nat), ∀ p ∈ List.enumFrom n l, n ≤ p.1 := by
  induction l with
  | nil => simp
  | cons x xs ih =>
    intro n p hp
    rw [List.enumFrom_cons] at hp
    rcases List.mem_cons.mp hp with rfl | hp2
    · exact le_refl n
    · exact (Nat.le_succ n).trans (ih (n + 1) p hp2)

theorem enumFrom_pairwise_fst (l : List α) : ∀ (n : Nat),
    (List.enumFrom n l).Pairwise (fun p q => p.1 < q.1) := by
  induction l with
  | nil => simp
  | cons x xs ih =>
    intro n
    rw [List.enumFrom_cons]
    refine List.pairwise_cons.mpr ⟨?_, ih (n + 1)⟩
    intro q hq
    have := enumFrom_fst_le xs (n + 1) q hq
    omega

/-- Claim C4: the fused score is the sum of `1/(60 + rank + 1)` over the
rank lists containing the position (0-based rank, absence contributing 0);
the fused ordering is a permutation of the first-discovered-ordered score
map, sorted by descending score with ties kept in first-discovered order
(the filter equation is sort stability); consequently fusing two identical
rank lists reproduces the list unchanged. -/
theorem c4_rrf_fusion (ranks : List (List Nat)) (h : ∀ l ∈ ranks, l.Nodup) :
    (∀ i : Nat, (List.lookup i (Ret.rrf ranks 60)).getD 0 =
      (ranks.map (fun l => if i ∈ l then 1 / (60 + (l.indexOf i : ℚ) + 1) else 0)).sum) ∧
    (isort Ret.scoreGt (Ret.rrf ranks 60)).Perm (Ret.rrf ranks 60) ∧
    (isort Ret.scoreGt (Ret.rrf ranks 60)).Pairwise (fun a b => b.2 ≤ a.2) ∧
    (∀ s : ℚ, (isort Ret.scoreGt (Ret.rrf ranks 60)).filter (fun p => p.2 = s) =
      (Ret.rrf ranks 60).filter (fun p => p.2 = s)) ∧
    (∀ l : List Nat, ranks = [l, l] →
      (isort Ret.scoreGt (Ret.rrf ranks 60)).map (fun p => p.1) = l) := by
  refine ⟨rrf_score_formula ranks h, isort_perm _ _, (isort_scoreGt_spec _).1,
    (isort_scoreGt_spec _).2, ?_⟩
  intro l hll
  subst hll
  have hnd : l.Nodup := h l (by simp)
  rw [rrf_double 60 l hnd]
  rw [isort_strict _ (by
    rw [show l.enum = List.enumFrom 0 l from rfl]
    apply List.pairwise_map.mpr
    apply (enumFrom_pairwise_fst l 0).imp
    intro p q hpq
    have hc : (p.1 : ℚ) < (q.1 : ℚ) := by exact_mod_cast hpq
    have h1 : (0 : ℚ) < 60 + (p.1 : ℚ) + 1 := by positivity
    have h2 : 60 + (p.1 : ℚ) + 1 < 60 + (q.1 : ℚ) + 1 := by linarith
    have hw : 1 / (60 + (q.1 : ℚ) + 1) < 1 / (60 + (p.1 : ℚ) + 1) :=
      one_div_lt_one_div_of_lt h1 h2
    show (1 : ℚ) / (60 + (q.1 : ℚ) + 1) + 1 / (60 + (q.1 : ℚ) + 1) <
      1 / (60 + (p.1 : ℚ) + 1) + 1 / (60 + (p.1 : ℚ) + 1)
    linarith)]
  rw [List.map_map]
  rw [show ((fun (p : Nat × ℚ) => p.1) ∘
      (fun p : Nat × Nat => ((p.2 : Nat),
        1 / (60 + (p.1 : ℚ) + 1) + 1 / (60 + (p.1 : ℚ) + 1)))) =
      (fun p : Nat × Nat => p.2) from rfl]
  exact List.enum_map_snd l

theorem c4_rrf_fusion_witness :
    (∀ l ∈ ([[0, 1], [0, 1]] : List (List Nat)), l.Nodup) ∧
    (isort Ret.scoreGt (Ret.rrf [[0, 1], [0, 1]] 60)).map (fun p => p.1) = [0, 1] :=
  ⟨by decide, (c4_rrf_fusion [[0, 1], [0, 1]] (by decide)).2.2.2.2 [0, 1] rfl⟩

/-! ## C8: chunk bounds and the empty-input case of `make_chunks` -/

theorem flush_prose_chunks (title : Str) (ot mc : Nat) (st : UC.CState)
    (h : ∀ cm ∈ st.chunks, cm.1.length ≤ mc) :
    ∀ cm ∈ (UC.flush_prose title ot mc st).chunks, cm.1.length ≤ mc := by
  unfold UC.flush_prose
  split
  · exact h
  · intro cm hcm
    simp only at hcm
    rcases List.mem_append.mp hcm with h1 | h2
    · exact h cm h1
    · simp only [List.mem_singleton] at h2
      subst h2
      simp [List.length_take]

theorem flush_rows_chunks (title : Str) (mc : Nat) (st : UC.CState)
    (h : ∀ cm ∈ st.chunks, cm.1.length ≤ mc) :
    ∀ cm ∈ (UC.flush_rows title mc st).chunks, cm.1.length ≤ mc := by
  unfold UC.flush_rows
  split
  · exact h
  · intro cm hcm
    simp only at hcm
    rcases List.mem_append.mp hcm with h1 | h2
    · exact h cm h1
    · simp only [List.mem_singleton] at h2
      subst h2
      simp [List.length_take]

theorem addSent_chunks (title : Str) (tt ot mc : Nat) (st : UC.CState) (s : Str)
    (h : ∀ cm ∈ st.chunks, cm.1.length ≤ mc) :
    ∀ cm ∈ (UC.addSent title tt ot mc st s).chunks, cm.1.length ≤ mc := by
  simp only [UC.addSent]
  split
  · exact h
  · exact flush_prose_chunks title ot mc st h

theorem foldl_addSent_chunks (title : Str) (tt ot mc : Nat) (sents : List Str) :
    ∀ st : UC.CState, (∀ cm ∈ st.chunks, cm.1.length ≤ mc) →
    ∀ cm ∈ (sents.foldl (UC.addSent title tt ot mc) st).chunks, cm.1.length ≤ mc := by
  induction sents with
  | nil => intro st h; exact h
  | cons s rest ih =>
    intro st h
    exact ih _ (addSent_chunks title tt ot mc st s h)

theorem stepLine_chunks (title : Str) (tt ot mc : Nat) (st : UC.CState) (item : UC.ALine)
    (h : ∀ cm ∈ st.chunks, cm.1.length ≤ mc) :
    ∀ cm ∈ (UC.stepLine title tt ot mc st item).chunks, cm.1.length ≤ mc := by
  simp only [UC.stepLine]
  set w := if (st.window ++ [item]).length > 20 then List.drop 1 (st.window ++ [item])
    else st.window ++ [item] with hw
  split
  · exact h
  · split
    · split
      · apply flush_rows_chunks
        exact flush_prose_chunks title ot mc _ h
      · exact flush_prose_chunks title ot mc _ h
    · exact foldl_addSent_chunks title tt ot mc _ _ h

theorem foldl_stepLine_chunks (title : Str) (tt ot mc : Nat) (lines : List UC.ALine) :
    ∀ st : UC.CState, (∀ cm ∈ st.chunks, cm.1.length ≤ mc) →
    ∀ cm ∈ (lines.foldl (UC.stepLine title tt ot mc) st).chunks, cm.1.length ≤ mc := by
  induction lines with
  | nil => intro st h; exact h
  | cons x rest ih =>
    intro st h
    exact ih _ (stepLine_chunks title tt ot mc st x h)

/-- Claim C8: every chunk returned by `make_chunks` has text of at most
`max_chars` characters and at least 5 alphabetic tokens of length ≥ 2, and
the empty input yields the empty sequence (given that NFC normalisation
fixes the empty string, which it does). -/
theorem c8_make_chunks_bounds (nfc : Str → Str) (text title : Str) (tt ot mc : Nat) :
    (∀ cm ∈ UC.make_chunks nfc text title tt ot mc,
      cm.1.length ≤ mc ∧ 5 ≤ UC.alphaTokens cm.1) ∧
    (nfc [] = [] → UC.make_chunks nfc [] title tt ot mc = []) := by
  constructor
  · intro cm hcm
    unfold UC.make_chunks at hcm
    rw [List.mem_filter] at hcm
    obtain ⟨hmem, hfilt⟩ := hcm
    refine ⟨?_, by simpa using hfilt⟩
    have hinit : ∀ c ∈ (UC.initCState).chunks, c.1.length ≤ mc := by
      simp [UC.initCState]
    have h1 := foldl_stepLine_chunks title tt ot mc
      (UC.annotate_lines (UC.normalize_text nfc text)) UC.initCState hinit
    have h2 := flush_rows_chunks title mc _ h1
    have h3 := flush_prose_chunks title ot mc _ h2
    exact h3 cm hmem
  · intro h
    unfold UC.make_chunks UC.normalize_text
    rw [h]
    rfl

theorem c8_make_chunks_bounds_witness :
    (id ([] : Str) = []) ∧
    UC.make_chunks id [] "Document".toList 180 30 1500 = [] :=
  ⟨rfl, (c8_make_chunks_bounds id [] "Document".toList 180 30 1500).2 rfl⟩
